import Mathlib

/-!
Verification of the drawio_agentic repository.

This development shallowly embeds the two source files
(prompt2drawio.py and harvest_all_styles.py) into Lean.  Python
strings are modelled as Lean String values, and all character-level
operations (strip, lower, replace, the style key/value regex scan,
lexicographic comparison, decimal rendering) are implemented on the
underlying character lists so that every definition is executable and
kernel-reducible.  Python dicts are modelled as association lists in
insertion order, which is the observable behaviour of dicts in the
source (iteration order, first/last-wins lookups).
-/

/-! ## Python string primitives -/

/-- Python str.strip(): remove leading and trailing whitespace.
    (Lean's Char.isWhitespace covers space, tab, CR, LF, which is what
    the source's inputs contain.) -/
def pyStrip (s : String) : String :=
  String.mk (((s.data.dropWhile Char.isWhitespace).reverse.dropWhile Char.isWhitespace).reverse)

/-- Python str.lower() (ASCII range, as used by the source). -/
def pyLower (s : String) : String := String.mk (s.data.map Char.toLower)

/-- Python str.startswith. -/
def pyStartsWith (s pre : String) : Bool := pre.data.isPrefixOf s.data

/-- Python membership test of a single character in a string. -/
def pyContainsChar (s : String) (c : Char) : Bool := s.data.contains c

/-- Python substring membership test (pattern, subject). -/
def containsSub (pat : List Char) : List Char → Bool
  | [] => pat.isEmpty
  | c :: rest => pat.isPrefixOf (c :: rest) || containsSub pat rest

/-- Lexicographic code-point comparison of character lists: this is
    exactly Python's string less-than. -/
def strLtB : List Char → List Char → Bool
  | [], [] => false
  | [], _ :: _ => true
  | _ :: _, [] => false
  | a :: as, b :: bs =>
    if a.toNat < b.toNat then true
    else if b.toNat < a.toNat then false
    else strLtB as bs

/-- The non-strict order associated to strLtB; a stable sort with this
    relation agrees with Python's stable sorted(). -/
def pyStrLe (a b : String) : Prop := strLtB b.data a.data = false

instance : DecidableRel pyStrLe := fun a b => by unfold pyStrLe; infer_instance

/-! ## Decimal rendering of a natural number (Python str of an int) -/

/-- Decimal digits, most significant first; fuel-structural so that it
    reduces in the kernel.  A fuel of n+1 always suffices since the
    argument shrinks by a factor of ten each step. -/
def natDigitsGo : Nat → Nat → List Char
  | 0, _ => []
  | f+1, n => if n < 10 then [Nat.digitChar n] else natDigitsGo f (n / 10) ++ [Nat.digitChar (n % 10)]

/-- Python str(n) for a natural number. -/
def natToString (n : Nat) : String := String.mk (natDigitsGo (n + 1) n)

/-! ## Python str.replace (all occurrences, leftmost, non-overlapping) -/

/-- Fuel-structural scanner; the wrapper passes fuel length+1 which
    always suffices since each step consumes at least one character. -/
def replaceAllGo (pat repl : List Char) : Nat → List Char → List Char
  | 0, s => s
  | _+1, [] => []
  | f+1, c :: rest =>
    if pat ≠ [] ∧ pat.isPrefixOf (c :: rest) then
      repl ++ replaceAllGo pat repl f ((c :: rest).drop pat.length)
    else c :: replaceAllGo pat repl f rest

def replaceAll (pat repl s : List Char) : List Char := replaceAllGo pat repl (s.length + 1) s

/-- Python s.replace(pat, repl) on strings. -/
def pyReplace (s pat repl : String) : String := String.mk (replaceAll pat.data repl.data s.data)

/-! ## The style key/value scan of harvest_all_styles.py

    STYLE_KV_RE finds all non-overlapping matches of
    key=value pairs where a key is a nonempty run of word characters,
    a dot allowed, and the value runs to the next semicolon, with an
    optional semicolon consumed after the value.  The regex search
    advances one character on failure and jumps to the match end on
    success, which the scanner below reproduces. -/

def isKeyChar (c : Char) : Bool :=
  (97 ≤ c.toNat && c.toNat ≤ 122) || (65 ≤ c.toNat && c.toNat ≤ 90) ||
  (48 ≤ c.toNat && c.toNat ≤ 57) || c = '_' || c = '.'

def findallGo : Nat → List Char → List (String × String)
  | 0, _ => []
  | _+1, [] => []
  | f+1, c :: rest =>
    if isKeyChar c then
      match (c :: rest).dropWhile isKeyChar with
      | '=' :: r2 =>
        let v := r2.takeWhile (fun d => !(d == ';'))
        let r3 := r2.dropWhile (fun d => !(d == ';'))
        let r4 := match r3 with
          | ';' :: r => r
          | _ => r3
        (String.mk ((c :: rest).takeWhile isKeyChar), String.mk v) :: findallGo f r4
      | _ => findallGo f rest
    else findallGo f rest

/-- STYLE_KV_RE.findall on a string. -/
def findallKV (s : String) : List (String × String) := findallGo (s.data.length + 1) s.data

/-! ## Python dicts as association lists (insertion order) -/

def dlookup (m : List (String × α)) (k : String) : Option α :=
  (m.find? (fun kv => kv.1 == k)).map (fun kv => kv.2)

/-- Dict assignment d[k] = v: overwrite in place, else append. -/
def dinsert (m : List (String × α)) (k : String) (v : α) : List (String × α) :=
  if (m.find? (fun kv => kv.1 == k)).isSome then
    m.map (fun kv => if kv.1 == k then (kv.1, v) else kv)
  else m ++ [(k, v)]

/-- Dict d.setdefault(k, v). -/
def dsetdefault (m : List (String × α)) (k : String) (v : α) : List (String × α) :=
  if (m.find? (fun kv => kv.1 == k)).isSome then m else m ++ [(k, v)]

/-- Dict d[k] += 1 on an integer-valued dict. -/
def dincr (m : List (String × Nat)) (k : String) : List (String × Nat) :=
  m.map (fun kv => if kv.1 == k then (kv.1, kv.2 + 1) else kv)

/-- Python dict(pairs) lookup: the last pair with a given key wins. -/
def dlookupLast (l : List (String × String)) (k : String) : Option String :=
  (l.reverse.find? (fun kv => kv.1 == k)).map (fun kv => kv.2)

def keysOf (m : List (String × α)) : List String := m.map (fun kv => kv.1)

/-! ## harvest_all_styles.py: normalize_style -/

/-- Sort relation used by normalize_style: Python list.sort with
    key = lowercased pair key.  A stable sort with this non-strict
    relation coincides with Python's stable Timsort, so the Lean
    insertionSort below (which is stable) is a faithful model. -/
def normKVLe (p q : String × String) : Prop :=
  strLtB (pyLower q.1).data (pyLower p.1).data = false

instance : DecidableRel normKVLe := fun p q => by unfold normKVLe; infer_instance

/-- The trimmed, nonempty-key pair list that normalize_style sorts. -/
def styleKV (style : String) : List (String × String) :=
  ((findallKV style).map (fun kv => (pyStrip kv.1, pyStrip kv.2))).filter
    (fun kv => !(kv.1 == ""))

/-- Python semicolon join. -/
def joinSemi : List String → String
  | [] => ""
  | [s] => s
  | s :: t :: rest => s ++ ";" ++ joinSemi (t :: rest)

/-- normalize_style from harvest_all_styles.py. -/
def normalize_style (style : String) : String :=
  let kv := List.insertionSort normKVLe (styleKV style)
  joinSemi (kv.map (fun p => p.1 ++ "=" ++ p.2)) ++ (if kv.isEmpty then "" else ";")

/-! ## harvest_all_styles.py: guess_key_from_style -/

/-- guess_key_from_style.  The dict built from the findall pairs keeps
    the last occurrence of a key; shape.split with one split at the
    mxgraph. marker, taken after a positive startswith test, equals
    dropping the eight marker characters. -/
def guess_key_from_style (style : String) (is_edge : Bool) : String :=
  let d := findallKV style
  if !is_edge then
    let shape := (dlookupLast d "shape").getD ""
    if pyStartsWith shape "mxgraph." then String.mk (shape.data.drop 8)
    else if shape ≠ "" then "shape." ++ shape
    else "shape.rect"
  else
    let est := (dlookupLast d "edgeStyle").getD ""
    if est ≠ "" then "edge." ++ pyReplace est "EdgeStyle" ""
    else
      let ea := (dlookupLast d "endArrow").getD ""
      let sa := (dlookupLast d "startArrow").getD ""
      let arr := if ea ≠ "" then ea else sa
      if arr ≠ "" then "edge." ++ arr else "edge.orthogonal"

/-! ## harvest_all_styles.py: safe_key and add_unique -/

def safeChar (c : Char) : Bool :=
  (97 ≤ c.toNat && c.toNat ≤ 122) || (48 ≤ c.toNat && c.toNat ≤ 57) ||
  c = '_' || c = '.' || c = '-'

def collapseDashes : List Char → List Char
  | [] => []
  | [c] => [c]
  | c :: d :: r => if c = '-' && d = '-' then collapseDashes (d :: r) else c :: collapseDashes (d :: r)

/-- safe_key: lowercase the stripped key, turn every maximal run of
    characters outside the safe class into a single hyphen, trim
    hyphens at both ends, defaulting to "style" when empty.  Mapping
    each bad character to a hyphen and then collapsing hyphen runs is
    the composite effect of the two re.sub calls in the source. -/
def safe_key (key : String) : String :=
  let k1 := (pyLower (pyStrip key)).data
  let k2 := k1.map (fun c => if safeChar c then c else '-')
  let k3 := collapseDashes k2
  let k4 := ((k3.dropWhile (fun c => c == '-')).reverse.dropWhile (fun c => c == '-')).reverse
  if k4.isEmpty then "style" else String.mk k4

/-- The suffix-probing loop of add_unique.  The source's while loop
    always terminates because the dict holds finitely many keys; the
    fuel m.length + 1 is enough since the probed keys are pairwise
    distinct, so the zero-fuel branch (which performs the insertion
    exactly as an exhausted loop would) is unreachable. -/
def addUniqueGo (m : List (String × String)) (k s_norm style : String) :
    Nat → Nat → String × List (String × String)
  | i, 0 => (k ++ "-" ++ natToString i, m ++ [(k ++ "-" ++ natToString i, style)])
  | i, fuel+1 =>
    let ki := k ++ "-" ++ natToString i
    match dlookup m ki with
    | some v => if normalize_style v == s_norm then (ki, m) else addUniqueGo m k s_norm style (i+1) fuel
    | none => (ki, m ++ [(ki, style)])

/-- add_unique from harvest_all_styles.py: returns the chosen key and
    the (possibly extended) mapping. -/
def add_unique (m : List (String × String)) (base_key style : String) :
    String × List (String × String) :=
  let k := safe_key base_key
  let s_norm := normalize_style style
  match m.find? (fun kv => normalize_style kv.2 == s_norm) with
  | some kv => (kv.1, m)
  | none =>
    if (m.find? (fun kv => kv.1 == k)).isSome then addUniqueGo m k s_norm style 1 (m.length + 1)
    else (k, m ++ [(k, style)])

/-! ## prompt2drawio.py: escaping -/

def apos : Char := Char.ofNat 39

/-- Per-character action of Python html.escape(s, quote=True), which
    the source's html_escape calls: ampersand first, then the angle
    brackets and both quote characters. -/
def escHtml (c : Char) : List Char :=
  if c = '&' then "&amp;".data
  else if c = '<' then "&lt;".data
  else if c = '>' then "&gt;".data
  else if c = '"' then "&quot;".data
  else if c = apos then "&#x27;".data
  else [c]

/-- html_escape from prompt2drawio.py (content layer). -/
def html_escape (s : String) : String := String.mk (s.data.flatMap escHtml)

/-- xml_attr from prompt2drawio.py (attribute layer): four sequential
    str.replace passes, ampersand first; None becomes the empty
    string. -/
def xml_attr (s : Option String) : String :=
  match s with
  | none => ""
  | some s =>
    String.mk (replaceAll "\"".data "&quot;".data
      (replaceAll ">".data "&gt;".data
        (replaceAll "<".data "&lt;".data
          (replaceAll "&".data "&amp;".data s.data))))

/-! ## prompt2drawio.py: graph data model -/

structure GNode where
  id : String
  label : String
  shape : String
  html : Bool
deriving DecidableEq

structure GEdge where
  src : String
  tgt : String
  label : String
deriving DecidableEq

structure GSpec where
  title : String
  direction : String
  nodes : List GNode
  edges : List GEdge
deriving DecidableEq

/-- The placeholder node synthesized by build_graph for an endpoint id
    that is not among the declared nodes. -/
def phNode (id : String) : GNode := ⟨id, id, "rect", true⟩

/-- The target half of the edge loop body in build_graph: bump the
    indegree of a known target, else synthesize the placeholder and
    record indegree one. -/
def bgStepTgt (st : List (String × GNode) × List (String × Nat)) (e : GEdge) :
    List (String × GNode) × List (String × Nat) :=
  if (dlookup st.2 e.tgt).isSome then (st.1, dincr st.2 e.tgt)
  else (dsetdefault st.1 e.tgt (phNode e.tgt), dinsert st.2 e.tgt 1)

/-- The source half of the edge loop body in build_graph: synthesize a
    placeholder for an unknown source with default indegree zero. -/
def bgStepSrc (st : List (String × GNode) × List (String × Nat)) (e : GEdge) :
    List (String × GNode) × List (String × Nat) :=
  if (dlookup st.1 e.src).isSome then st
  else (dsetdefault st.1 e.src (phNode e.src), dsetdefault st.2 e.src 0)

/-- One step of the edge loop in build_graph. -/
def bgStep (st : List (String × GNode) × List (String × Nat)) (e : GEdge) :
    List (String × GNode) × List (String × Nat) :=
  bgStepSrc (bgStepTgt st e) e

/-- The initial node dict of build_graph (a dict comprehension over
    the declared nodes, later duplicates overwriting in place). -/
def nodesById0 (spec : GSpec) : List (String × GNode) :=
  spec.nodes.foldl (fun m n => dinsert m n.id n) []

/-- build_graph from prompt2drawio.py: the node dict (insertion
    ordered, duplicate declared ids collapse to one slot) and the
    indegree dict, initially zero on every declared node. -/
def build_graph (spec : GSpec) : List (String × GNode) × List (String × Nat) :=
  spec.edges.foldl bgStep
    (nodesById0 spec, (nodesById0 spec).map (fun kv => (kv.1, (0 : Nat))))

/-! ## prompt2drawio.py: BFS layering -/

/-- Neighbor list: adj is built by appending edge targets in edge
    order, so it equals this filter/map. -/
def adjOf (spec : GSpec) (u : String) : List String :=
  (spec.edges.filter (fun e => e.src == u)).map (fun e => e.tgt)

/-- One BFS queue round: visit every neighbor of the popped node,
    recording distance and enqueueing the unvisited ones.  The visited
    set of the source always equals the key set of dist, so dist keys
    double as the visited test. -/
def bfsVisit (adj : String → List String) (u : String)
    (st : List (String × Nat) × List String) : List (String × Nat) × List String :=
  let du := (dlookup st.1 u).getD 0
  (adj u).foldl
    (fun p v => if (dlookup p.1 v).isSome then p else (p.1 ++ [(v, du + 1)], p.2 ++ [v]))
    st

/-- The BFS loop; fuel nbi.length + 1 is enough because every queue
    entry is a distinct graph key, so at most nbi.length pops occur. -/
def bfsGo (adj : String → List String) : Nat → List String → List (String × Nat) → List (String × Nat)
  | 0, _, dist => dist
  | _+1, [], dist => dist
  | f+1, u :: q, dist =>
    let st := bfsVisit adj u (dist, q)
    bfsGo adj f st.2 st.1

/-- The BFS distance map shared by choose_direction_auto and
    layer_layout (the two source functions contain the identical
    block).  Roots are the zero-indegree keys; when there are none the
    first key of the node dict is the single start (the source would
    raise on an empty dict; here the result is just empty). -/
def bfsDistOf (spec : GSpec) : List (String × Nat) :=
  let g := build_graph spec
  let roots := ((g.2.filter (fun kv => kv.2 == 0)).map (fun kv => kv.1))
  let q0 := if roots.isEmpty then
      (match g.1 with
       | [] => []
       | kv :: _ => [kv.1])
    else roots
  bfsGo (adjOf spec) (g.1.length + 1) q0 (q0.map (fun k => (k, (0 : Nat))))

/-- Largest number of nodes sharing one BFS layer (zero when no node
    was layered). -/
def maxPopOf (spec : GSpec) : Nat :=
  let vals := (bfsDistOf spec).map (fun p => p.2)
  ((vals.dedup).map (fun d => vals.count d)).foldr Nat.max 0

/-- Number of distinct BFS layers. -/
def layerCountOf (spec : GSpec) : Nat := (((bfsDistOf spec).map (fun p => p.2)).dedup).length

/-- choose_direction_auto from prompt2drawio.py. -/
def choose_direction_auto (spec : GSpec) : String :=
  let dist := bfsDistOf spec
  let vals := dist.map (fun p => p.2)
  let counts := (vals.dedup).map (fun d => vals.count d)
  let maxPop := if counts.isEmpty then 1 else counts.foldr Nat.max 0
  let lc := if (vals.dedup).length = 0 then 1 else (vals.dedup).length
  if lc < maxPop then "LR" else "TD"

def NODE_W : Nat := 240

def NODE_H : Nat := 96

def H_GAP : Nat := 200

def V_GAP : Nat := 160

/-- The rows of layer_layout: distinct layers in ascending order, the
    node ids of each layer sorted lexicographically. -/
def layerRows (dist : List (String × Nat)) : List (Nat × List String) :=
  let ds := List.insertionSort (fun a b : Nat => a ≤ b) (((dist.map (fun p => p.2))).dedup)
  ds.map (fun d =>
    (d, List.insertionSort pyStrLe ((dist.filter (fun p => p.2 == d)).map (fun p => p.1))))

/-- layer_layout from prompt2drawio.py: the position map. -/
def layer_layout (spec : GSpec) (direction : Option String) : List (String × Nat × Nat) :=
  let dir := match direction with
    | some d => d
    | none => choose_direction_auto spec
  let rows := layerRows (bfsDistOf spec)
  if dir == "TD" then
    rows.flatMap (fun row =>
      (row.2.enum).map (fun p => (p.2, (p.1 * (NODE_W + H_GAP), row.1 * (NODE_H + V_GAP)))))
  else
    rows.flatMap (fun row =>
      (row.2.enum).map (fun p => (p.2, (row.1 * (NODE_W + H_GAP), p.1 * (NODE_H + V_GAP)))))

/-! ## prompt2drawio.py: style resolution -/

/-- style_from_key_or_literal: a falsy argument resolves to nothing; a
    stripped reference that starts with the shape marker (checked on
    its lowercase form) or contains a semicolon is a literal style;
    any other reference is an exact dict lookup. -/
def style_from_key_or_literal (arg : Option String) (styles : List (String × String)) :
    Option String :=
  match arg with
  | none => none
  | some a0 =>
    if a0 = "" then none
    else
      let a := pyStrip a0
      if pyStartsWith (pyLower a) "shape=" || pyContainsChar a ';' then some a
      else dlookup styles a

def pyEndsWith (s suf : String) : Bool := suf.data.isSuffixOf s.data

/-- find_style (the underscore-prefixed helper in the source): first
    key, in dict order, containing every include token and no exclude
    token, case-insensitively; the falsy-key guard of the source's
    final line is kept. -/
def find_style (styles : List (String × String)) (incl excl : List String) : Option String :=
  if styles.isEmpty then none
  else
    let inc := incl.map pyLower
    let exc := excl.map pyLower
    match styles.find? (fun kv =>
        inc.all (fun t => containsSub t.data (pyLower kv.1).data) &&
        exc.all (fun t => !containsSub t.data (pyLower kv.1).data)) with
    | some kv => if kv.1 = "" then none else dlookup styles kv.1
    | none => none

/-- The regex test of ensure_html: html=1 delimited by the string ends
    or semicolons, spelled out as the four possible positions. -/
def hasHtml1 (style : String) : Bool :=
  style == "html=1" || pyStartsWith style "html=1;" || pyEndsWith style ";html=1" ||
  containsSub ";html=1;".data style.data

/-- ensure_html from prompt2drawio.py: rstrip the semicolons and
    append the flag unless already present. -/
def ensure_html (style : String) : String :=
  if hasHtml1 style then style
  else String.mk ((style.data.reverse.dropWhile (fun c => c == ';')).reverse) ++ ";html=1;"

/-- default_vertex_style (the source's html branch and its else branch
    carry the same base string). -/
def default_vertex_style (shape : String) (html : Bool) : String :=
  let base := "whiteSpace=wrap;html=1;"
  if shape == "rhombus" then "shape=rhombus;rounded=0;" ++ base
  else if shape == "round" then "rounded=1;" ++ base
  else
    have : Bool := html
    "rounded=0;" ++ base

def default_edge_style : String :=
  "edgeStyle=orthogonalEdgeStyle;rounded=1;orthogonalLoop=1;jettySize=auto;html=1;"

/-- Python truthiness of an optional string (the repeated if s: tests
    of the source). -/
def truthy : Option String → Option String
  | some s => if s = "" then none else some s
  | none => none

/-- style_for_vertex from prompt2drawio.py. -/
def style_for_vertex (shape : String) (html : Bool) (styles : List (String × String))
    (pref_keys : List (List String)) (override : Option String) : String :=
  match truthy (style_from_key_or_literal override styles) with
  | some s => if html then ensure_html s else s
  | none =>
    match pref_keys.findSome? (fun inc => truthy (find_style styles inc ["edge"])) with
    | some s => if html then ensure_html s else s
    | none => default_vertex_style shape html

/-- style_for_edge from prompt2drawio.py. -/
def style_for_edge (styles : List (String × String)) (pref_keys : List (List String))
    (override : Option String) : String :=
  match truthy (style_from_key_or_literal override styles) with
  | some s => ensure_html s
  | none =>
    match pref_keys.findSome? (fun inc => truthy (find_style styles inc [])) with
    | some s => ensure_html s
    | none => default_edge_style

/-! ## prompt2drawio.py: the serialized cells of make_drawio_xml -/

inductive MxCell where
  | vertex (id value style : String) (x y w h : Nat)
  | edge (id value style source target : String)
deriving DecidableEq

def cellId : MxCell → String
  | MxCell.vertex id _ _ _ _ _ _ => id
  | MxCell.edge id _ _ _ _ => id

def isVertexCell : MxCell → Bool
  | MxCell.vertex .. => true
  | MxCell.edge .. => false

def isEdgeCell : MxCell → Bool
  | MxCell.vertex .. => false
  | MxCell.edge .. => true

/-- The per-mode vertex preference keys of make_drawio_xml. -/
def vPrefFor (mode : String) : List (List String) :=
  if mode == "er" then [["er.entity"], ["entity"], ["table"], ["erd"], ["sql"], ["db"]]
  else if mode == "class" then [["uml.class"], ["class"]]
  else if mode == "usecase" then [["usecase"], ["uml.usecase"], ["ellipse"], ["oval"]]
  else [["shape.rect"]]

/-- The per-mode edge preference keys of make_drawio_xml. -/
def ePrefFor (mode : String) : List (List String) :=
  if mode == "er" then [["edge.entityrelation"], ["entityrelation"], ["er.edge"], ["relationship"]]
  else if mode == "class" then [["edge.uml"], ["association"], ["edge.orthogonal"]]
  else if mode == "usecase" then [["edge.association"], ["edge.uml"], ["edge.orthogonal"]]
  else [["edge.orthogonal"]]

/-- override.get(k) on the override dict whose values are optional. -/
def oget (override : List (String × Option String)) (k : String) : Option String :=
  (dlookup override k).getD none

/-- The mode dispatch for a vertex style in make_drawio_xml. -/
def vertexStyleFor (mode : String) (styles : List (String × String))
    (override : List (String × Option String)) (n : GNode) : String :=
  if mode == "usecase" && pyStartsWith n.id "A" then
    style_for_vertex "round" true styles [["uml.actor"], ["actor"], ["stickman"], ["person"]]
      (oget override "actor")
  else if mode == "usecase" && pyStartsWith n.id "U" then
    style_for_vertex "round" true styles [["usecase"], ["ellipse"], ["oval"]]
      (oget override "usecase")
  else if mode == "class" then
    style_for_vertex "rect" true styles (vPrefFor mode) (oget override "class")
  else if mode == "er" then
    style_for_vertex "rect" true styles (vPrefFor mode) (oget override "er_entity")
  else style_for_vertex n.shape n.html styles (vPrefFor mode) (oget override "vertex")

/-- The mode dispatch for an edge style in make_drawio_xml. -/
def edgeStyleFor (mode : String) (styles : List (String × String))
    (override : List (String × Option String)) : String :=
  if mode == "er" then style_for_edge styles (ePrefFor mode) (oget override "er_edge")
  else if mode == "class" then style_for_edge styles (ePrefFor mode) (oget override "class_edge")
  else if mode == "usecase" then style_for_edge styles (ePrefFor mode) (oget override "usecase_edge")
  else style_for_edge styles (ePrefFor mode) (oget override "edge")

/-- The vertex cell emitted for one node: position looked up with
    default (0,0), fixed node width and height, id, label and style
    escaped for attribute use (the label defaulting to the id when
    falsy). -/
def vertexCellOf (pos : List (String × Nat × Nat)) (styles : List (String × String))
    (mode : String) (override : List (String × Option String)) (n : GNode) : MxCell :=
  let xy := (dlookup pos n.id).getD (0, 0)
  MxCell.vertex (xml_attr (some n.id))
    (xml_attr (some (if n.label ≠ "" then n.label else n.id)))
    (xml_attr (some (vertexStyleFor mode styles override n)))
    xy.1 xy.2 NODE_W NODE_H

/-- The edge cells, carrying the synthetic id counter of the source
    (eid starts at 100000 and increments once per edge). -/
def edgeCellsFrom (styles : List (String × String)) (mode : String)
    (override : List (String × Option String)) : Nat → List GEdge → List MxCell
  | _, [] => []
  | eid, e :: rest =>
    MxCell.edge ("e" ++ natToString eid) (xml_attr (some e.label))
      (xml_attr (some (edgeStyleFor mode styles override)))
      (xml_attr (some e.src)) (xml_attr (some e.tgt)) ::
    edgeCellsFrom styles mode override (eid + 1) rest

/-- The cell list of the document produced by make_drawio_xml: one
    vertex entry per node of the spec, then one edge entry per edge. -/
def make_drawio_cells (spec : GSpec) (pos : List (String × Nat × Nat))
    (styles : List (String × String)) (mode : String)
    (override : List (String × Option String)) : List MxCell :=
  spec.nodes.map (vertexCellOf pos styles mode override) ++
  edgeCellsFrom styles mode override 100000 spec.edges

/-! ## Spec-modelled inverses of the two escape layers

    The source contains no unescape functions; the spec's round-trip
    sentence speaks of applying the two corresponding unescape passes
    in reverse order.  The decoders below are those canonical
    entity decoders. -/

/-- Modelled from the spec: the attribute-layer unescape pass, the
    inverse of xml_attr (entities amp, lt, gt, quot). -/
def xmlUnescL : List Char → List Char
  | [] => []
  | c :: rest =>
    if c = '&' then
      if "amp;".data.isPrefixOf rest then '&' :: xmlUnescL (rest.drop 4)
      else if "lt;".data.isPrefixOf rest then '<' :: xmlUnescL (rest.drop 3)
      else if "gt;".data.isPrefixOf rest then '>' :: xmlUnescL (rest.drop 3)
      else if "quot;".data.isPrefixOf rest then '"' :: xmlUnescL (rest.drop 5)
      else '&' :: xmlUnescL rest
    else c :: xmlUnescL rest
termination_by l => l.length
decreasing_by all_goals (simp [List.length_drop]; try omega)

/-- Modelled from the spec: the content-layer unescape pass, the
    inverse of the html escape (entities amp, lt, gt, quot and the
    hexadecimal apostrophe reference). -/
def htmlUnescL : List Char → List Char
  | [] => []
  | c :: rest =>
    if c = '&' then
      if "amp;".data.isPrefixOf rest then '&' :: htmlUnescL (rest.drop 4)
      else if "lt;".data.isPrefixOf rest then '<' :: htmlUnescL (rest.drop 3)
      else if "gt;".data.isPrefixOf rest then '>' :: htmlUnescL (rest.drop 3)
      else if "quot;".data.isPrefixOf rest then '"' :: htmlUnescL (rest.drop 5)
      else if "#x27;".data.isPrefixOf rest then apos :: htmlUnescL (rest.drop 5)
      else '&' :: htmlUnescL rest
    else c :: htmlUnescL rest
termination_by l => l.length
decreasing_by all_goals (simp [List.length_drop]; try omega)

/-- Modelled from the spec: attribute-layer unescape on strings. -/
def xml_attr_unescape (s : String) : String := String.mk (xmlUnescL s.data)

/-- Modelled from the spec: content-layer unescape on strings. -/
def html_unescape (s : String) : String := String.mk (htmlUnescL s.data)

/-- The trailing-suffix strip that the claim (and spec sentence)
    attributes to classify: remove one trailing EdgeStyle suffix if
    present, in contrast to the source's replace of every
    occurrence. -/
def stripTrailingEdgeStyleSpec (v : String) : String :=
  if "EdgeStyle".data.isSuffixOf v.data then String.mk (v.data.take (v.data.length - 9)) else v

/-! ## build_graph invariants (claim C1) -/

/-- The node dict and the indegree dict always hold the same keys
    (the source updates them in lockstep). -/
def syncSt (st : List (String × GNode) × List (String × Nat)) : Prop :=
  ∀ a, (dlookup st.1 a).isSome = (dlookup st.2 a).isSome

/-- Every binding of the node dict outside the declared ids is a
    placeholder. -/
def phSt (declared : List String) (st : List (String × GNode) × List (String × Nat)) : Prop :=
  ∀ a v, dlookup st.1 a = some v → a ∉ declared → v = phNode a

/-- A one-node spec with one edge to an undeclared id, for the C1
    witness. -/
def c1spec : GSpec :=
  ⟨"", "TD", [⟨"n1", "Start", "round", false⟩], [⟨"n1", "ghost", ""⟩]⟩

/-! ## Claim C4: normalize_style order independence -/

/-- The strict companion of normKVLe. -/
def normKVLt (p q : String × String) : Prop :=
  strLtB (pyLower p.1).data (pyLower q.1).data = true

/-- The 1-root/4-children star of the claim. -/
def c3star : GSpec :=
  ⟨"", "TD",
   [⟨"r", "r", "rect", false⟩, ⟨"c1", "c1", "rect", false⟩, ⟨"c2", "c2", "rect", false⟩,
    ⟨"c3", "c3", "rect", false⟩, ⟨"c4", "c4", "rect", false⟩],
   [⟨"r", "c1", ""⟩, ⟨"r", "c2", ""⟩, ⟨"r", "c3", ""⟩, ⟨"r", "c4", ""⟩]⟩

/-- The 5-node chain of the claim. -/
def c3chain : GSpec :=
  ⟨"", "TD",
   [⟨"n1", "n1", "rect", false⟩, ⟨"n2", "n2", "rect", false⟩, ⟨"n3", "n3", "rect", false⟩,
    ⟨"n4", "n4", "rect", false⟩, ⟨"n5", "n5", "rect", false⟩],
   [⟨"n1", "n2", ""⟩, ⟨"n2", "n3", ""⟩, ⟨"n3", "n4", ""⟩, ⟨"n4", "n5", ""⟩]⟩

/-- The ids visited by the BFS of the layout stage. -/
def visitedIds (spec : GSpec) : List String := keysOf (bfsDistOf spec)

/-- C2 counterexample: in the graph with declared nodes A, B, C and a
    two-cycle between B and C, node B belongs to the built graph but
    is unreachable from the only zero-indegree root A, and the
    position map produced by layer_layout has no entry for it. -/
def c2cyc : GSpec :=
  ⟨"", "TD",
   [⟨"A", "A", "rect", false⟩, ⟨"B", "B", "rect", false⟩, ⟨"C", "C", "rect", false⟩],
   [⟨"B", "C", ""⟩, ⟨"C", "B", ""⟩]⟩

/-- C8 counterexample: a declared node with id e100000 produces a
    vertex cell whose identifier collides with the first synthetic
    edge identifier, so edge identifiers are not disjoint from node
    identifiers in general. -/
def c8spec : GSpec :=
  ⟨"", "TD", [⟨"e100000", "lbl", "rect", false⟩], [⟨"e100000", "e100000", ""⟩]⟩

/-- A spec whose single node has no entry in an empty position map,
    for the C10 witness. -/
def c10spec : GSpec := ⟨"", "TD", [⟨"a", "lbl", "rect", false⟩], []⟩

/-! ## Claim C9: the two escape layers round-trip -/

/-- Per-character action of xml_attr (the four sequential replaces,
    ampersand first, compose to this character map). -/
def escAttr (c : Char) : List Char :=
  if c = '&' then "&amp;".data
  else if c = '<' then "&lt;".data
  else if c = '>' then "&gt;".data
  else if c = '"' then "&quot;".data
  else [c]

/-- Per-character action of the full double escape (content layer then
    attribute layer). -/
def escBoth (c : Char) : List Char :=
  if c = '&' then "&amp;amp;".data
  else if c = '<' then "&amp;lt;".data
  else if c = '>' then "&amp;gt;".data
  else if c = '"' then "&amp;quot;".data
  else if c = apos then "&amp;#x27;".data
  else [c]

/-- The per-pass character maps of xml_attr. -/
def ampMap (c : Char) : List Char := if c = '&' then "&amp;".data else [c]

def ltMap (c : Char) : List Char := if c = '<' then "&lt;".data else [c]

def gtMap (c : Char) : List Char := if c = '>' then "&gt;".data else [c]

def quotMap (c : Char) : List Char := if c = '"' then "&quot;".data else [c]

/-! ### Order facts for strLtB -/

theorem char_toNat_inj {a b : Char} (h : a.toNat = b.toNat) : a = b :=
  Char.eq_of_val_eq (UInt32.eq_of_toBitVec_eq (BitVec.toNat_injective h))

theorem strLtB_asymm : ∀ a b, strLtB a b = true → strLtB b a = false := by
  intro a
  induction a with
  | nil => intro b h; cases b <;> simp_all [strLtB]
  | cons x xs ih =>
    intro b h
    cases b with
    | nil => simp [strLtB] at h
    | cons y ys =>
      simp only [strLtB] at h ⊢
      rcases Nat.lt_trichotomy x.toNat y.toNat with hlt | heq | hgt
      · simp [Nat.not_lt.mpr (Nat.le_of_lt hlt), hlt]
      · simp only [heq, Nat.lt_irrefl, if_false] at h ⊢
        exact ih _ h
      · simp [hgt, Nat.not_lt.mpr (Nat.le_of_lt hgt)] at h

theorem strLtB_conn : ∀ a b, strLtB a b = false → strLtB b a = false → a = b := by
  intro a
  induction a with
  | nil =>
    intro b h1 _
    cases b with
    | nil => rfl
    | cons y ys => simp [strLtB] at h1
  | cons x xs ih =>
    intro b h1 h2
    cases b with
    | nil => simp [strLtB] at h2
    | cons y ys =>
      simp only [strLtB] at h1 h2
      rcases Nat.lt_trichotomy x.toNat y.toNat with hlt | heq | hgt
      · simp [hlt] at h1
      · have hxy : x = y := char_toNat_inj heq
        subst hxy
        simp only [Nat.lt_irrefl, if_false] at h1 h2
        rw [ih ys h1 h2]
      · simp [hgt] at h2

theorem strLtB_le_trans :
    ∀ a b c : List Char, strLtB b a = false → strLtB c b = false → strLtB c a = false := by
  intro a
  induction a with
  | nil =>
    intro b c _ _
    cases c with
    | nil => rfl
    | cons z zs => rfl
  | cons x xs ih =>
    intro b c h1 h2
    cases b with
    | nil => simp [strLtB] at h1
    | cons y ys =>
      cases c with
      | nil => simp [strLtB] at h2
      | cons z zs =>
        simp only [strLtB] at h1 h2 ⊢
        have hyx : ¬ y.toNat < x.toNat := by
          intro hc; simp [hc] at h1
        have hzy : ¬ z.toNat < y.toNat := by
          intro hc; simp [hc] at h2
        have hzx : ¬ z.toNat < x.toNat := by omega
        simp only [hyx, if_false] at h1
        simp only [hzy, if_false] at h2
        simp only [hzx, if_false]
        by_cases hxz : x.toNat < z.toNat
        · simp [hxz]
        · have hxy : ¬ x.toNat < y.toNat := by omega
          have hyz : ¬ y.toNat < z.toNat := by omega
          simp only [hxy, if_false] at h1
          simp only [hyz, if_false] at h2
          simp only [hxz, if_false]
          exact ih ys zs h1 h2

theorem natDigitsGo_fuel_irrel :
    ∀ n f1 f2, n < f1 → n < f2 → natDigitsGo f1 n = natDigitsGo f2 n := by
  intro n
  induction n using Nat.strong_induction_on with
  | _ n ih =>
    intro f1 f2 h1 h2
    match f1, f2 with
    | g1+1, g2+1 =>
      simp only [natDigitsGo]
      by_cases hn : n < 10
      · simp [hn]
      · simp only [hn, if_false]
        have hlt : n / 10 < n := Nat.div_lt_self (by omega) (by omega)
        exact congrArg (fun l => l ++ [Nat.digitChar (n % 10)])
          (ih (n / 10) hlt g1 g2 (by omega) (by omega))

theorem natDigitsGo_ne_nil (n : Nat) : natDigitsGo (n + 1) n ≠ [] := by
  simp only [natDigitsGo]
  by_cases hn : n < 10
  · simp [hn]
  · simp [hn]

theorem digitChar_inj_lt10 :
    ∀ a : Nat, a < 10 → ∀ b : Nat, b < 10 → Nat.digitChar a = Nat.digitChar b → a = b := by
  decide

theorem natDigits_inj : ∀ m n : Nat, natDigitsGo (m + 1) m = natDigitsGo (n + 1) n → m = n := by
  intro m
  induction m using Nat.strong_induction_on with
  | _ m ih =>
    intro n h
    simp only [natDigitsGo] at h
    by_cases hm : m < 10 <;> by_cases hn : n < 10
    · simp only [hm, hn, if_true] at h
      injection h with h1 _
      exact digitChar_inj_lt10 m hm n hn h1
    · exfalso
      simp only [hm, hn, if_true, if_false] at h
      have hne : natDigitsGo n (n / 10) ≠ [] := by
        have hlt : n / 10 < n := Nat.div_lt_self (by omega) (by omega)
        rw [natDigitsGo_fuel_irrel (n / 10) n (n / 10 + 1) hlt (Nat.lt_succ_self _)]
        exact natDigitsGo_ne_nil (n / 10)
      have hlen := congrArg List.length h
      simp only [List.length_append, List.length_cons, List.length_nil] at hlen
      have h0 : (natDigitsGo n (n / 10)).length = 0 := by omega
      exact hne (List.length_eq_zero.mp h0)
    · exfalso
      simp only [hm, hn, if_true, if_false] at h
      have hne : natDigitsGo m (m / 10) ≠ [] := by
        have hlt : m / 10 < m := Nat.div_lt_self (by omega) (by omega)
        rw [natDigitsGo_fuel_irrel (m / 10) m (m / 10 + 1) hlt (Nat.lt_succ_self _)]
        exact natDigitsGo_ne_nil (m / 10)
      have hlen := congrArg List.length h
      simp only [List.length_append, List.length_cons, List.length_nil] at hlen
      have h0 : (natDigitsGo m (m / 10)).length = 0 := by omega
      exact hne (List.length_eq_zero.mp h0)
    · simp only [hm, hn, if_false] at h
      have hmlt : m / 10 < m := Nat.div_lt_self (by omega) (by omega)
      have hnlt : n / 10 < n := Nat.div_lt_self (by omega) (by omega)
      obtain ⟨hpre, hlast⟩ := List.append_inj' h (by rfl)
      have hmod : m % 10 = n % 10 := by
        injection hlast with h1 _
        exact digitChar_inj_lt10 (m % 10) (Nat.mod_lt _ (by omega)) (n % 10)
          (Nat.mod_lt _ (by omega)) h1
      have hdiv : m / 10 = n / 10 := by
        apply ih (m / 10) hmlt
        rw [natDigitsGo_fuel_irrel (m / 10) (m / 10 + 1) m (Nat.lt_succ_self _) hmlt,
            natDigitsGo_fuel_irrel (n / 10) (n / 10 + 1) n (Nat.lt_succ_self _) hnlt]
        exact hpre
      omega

theorem natToString_inj : ∀ m n : Nat, natToString m = natToString n → m = n := by
  intro m n h
  apply natDigits_inj
  have := congrArg String.data h
  simpa [natToString] using this

/-! ## Association-list (dict) lemmas -/

theorem dlookup_isSome_find (m : List (String × α)) (k : String) :
    (dlookup m k).isSome = (m.find? (fun kv => kv.1 == k)).isSome := by
  simp [dlookup]

theorem dlookup_mem {m : List (String × α)} {k : String} {v : α}
    (h : dlookup m k = some v) : (k, v) ∈ m := by
  simp only [dlookup, Option.map_eq_some'] at h
  obtain ⟨kv, hfind, hsnd⟩ := h
  have hmem := List.mem_of_find?_eq_some hfind
  have hp := List.find?_some hfind
  simp only [beq_iff_eq] at hp
  have : kv = (k, v) := by
    cases kv
    simp_all
  rw [← this]
  exact hmem

theorem dlookup_none_iff (m : List (String × α)) (k : String) :
    dlookup m k = none ↔ k ∉ keysOf m := by
  simp only [dlookup, Option.map_eq_none', List.find?_eq_none, keysOf, beq_iff_eq]
  constructor
  · intro h hk
    obtain ⟨kv, hkv, hfst⟩ := List.mem_map.mp hk
    exact h kv hkv hfst
  · intro h kv hkv hfst
    exact h (List.mem_map.mpr ⟨kv, hkv, hfst⟩)

theorem dlookup_append_single (m : List (String × α)) (k a : String) (v : α) :
    dlookup (m ++ [(k, v)]) a =
      match dlookup m a with
      | some w => some w
      | none => if k == a then some v else none := by
  simp only [dlookup, List.find?_append]
  cases hf : m.find? (fun kv => kv.1 == a) with
  | some kv => simp [Option.orElse]
  | none =>
    simp only [Option.orElse, Option.map]
    by_cases hk : k == a
    · simp [List.find?, hk]
    · simp only [List.find?, hk]
      simp [hk]

theorem keysOf_append (m1 m2 : List (String × α)) :
    keysOf (m1 ++ m2) = keysOf m1 ++ keysOf m2 := by
  simp [keysOf]

theorem keysOf_mapval (m : List (String × α)) (f : String × α → β) :
    keysOf (m.map (fun kv => (kv.1, f kv))) = keysOf m := by
  simp [keysOf, List.map_map]

theorem dlookup_mapval_isSome (m : List (String × α)) (f : String × α → β) (a : String) :
    (dlookup (m.map (fun kv => (kv.1, f kv))) a).isSome = (dlookup m a).isSome := by
  induction m with
  | nil => rfl
  | cons kv rest ih =>
    simp only [List.map_cons, dlookup, List.find?]
    by_cases h : kv.1 == a
    · simp [h]
    · simp only [h]
      simpa [dlookup] using ih

theorem dincr_eq_mapval (m : List (String × Nat)) (k : String) :
    dincr m k = m.map (fun kv => (kv.1, if kv.1 == k then kv.2 + 1 else kv.2)) := by
  simp only [dincr]
  apply List.map_congr_left
  intro kv _
  by_cases h : kv.1 == k <;> simp [h]

theorem dinsert_of_present (m : List (String × α)) (k : String) (v : α)
    (h : (dlookup m k).isSome) :
    dinsert m k v = m.map (fun kv => if kv.1 == k then (kv.1, v) else kv) := by
  rw [dlookup_isSome_find] at h
  simp [dinsert, h]

theorem dinsert_of_absent (m : List (String × α)) (k : String) (v : α)
    (h : dlookup m k = none) : dinsert m k v = m ++ [(k, v)] := by
  have h2 : (m.find? (fun kv => kv.1 == k)).isSome = false := by
    rw [← dlookup_isSome_find, h]
    rfl
  simp [dinsert, h2]

theorem dsetdefault_of_present (m : List (String × α)) (k : String) (v : α)
    (h : (dlookup m k).isSome) : dsetdefault m k v = m := by
  rw [dlookup_isSome_find] at h
  simp [dsetdefault, h]

theorem dsetdefault_of_absent (m : List (String × α)) (k : String) (v : α)
    (h : dlookup m k = none) : dsetdefault m k v = m ++ [(k, v)] := by
  have h2 : (m.find? (fun kv => kv.1 == k)).isSome = false := by
    rw [← dlookup_isSome_find, h]
    rfl
  simp [dsetdefault, h2]

theorem dsetdefault_pres {m : List (String × α)} {a : String} {v : α} (k : String) (x : α)
    (h : dlookup m a = some v) : dlookup (dsetdefault m k x) a = some v := by
  by_cases hp : (dlookup m k).isSome
  · rw [dsetdefault_of_present m k x hp]
    exact h
  · rw [dsetdefault_of_absent m k x (Option.not_isSome_iff_eq_none.mp hp)]
    rw [dlookup_append_single, h]

theorem dsetdefault_lookup_cases {m : List (String × α)} {k a : String} {x v : α}
    (h : dlookup (dsetdefault m k x) a = some v) :
    dlookup m a = some v ∨ (a = k ∧ v = x) := by
  by_cases hp : (dlookup m k).isSome
  · rw [dsetdefault_of_present m k x hp] at h
    exact Or.inl h
  · rw [dsetdefault_of_absent m k x (Option.not_isSome_iff_eq_none.mp hp)] at h
    rw [dlookup_append_single] at h
    cases hm : dlookup m a with
    | some w => rw [hm] at h; exact Or.inl h
    | none =>
      rw [hm] at h
      by_cases hk : k == a
      · simp only [hk, if_true] at h
        right
        refine ⟨(beq_iff_eq.mp hk).symm, ?_⟩
        injection h
        simp_all
      · simp [hk] at h

theorem dsetdefault_self_isSome (m : List (String × α)) (k : String) (x : α) :
    (dlookup (dsetdefault m k x) k).isSome := by
  by_cases hp : (dlookup m k).isSome
  · rw [dsetdefault_of_present m k x hp]
    exact hp
  · rw [dsetdefault_of_absent m k x (Option.not_isSome_iff_eq_none.mp hp)]
    rw [dlookup_append_single]
    cases hm : dlookup m k with
    | some w => simp
    | none => simp

theorem dlookup_cons (kv : String × α) (m : List (String × α)) (a : String) :
    dlookup (kv :: m) a = if kv.1 == a then some kv.2 else dlookup m a := by
  simp only [dlookup, List.find?]
  by_cases h : kv.1 == a <;> simp [h]

theorem dlookup_mapif_ne (m : List (String × α)) (k a : String) (v : α) (h : ¬ a = k) :
    dlookup (m.map (fun kv => if kv.1 == k then (kv.1, v) else kv)) a = dlookup m a := by
  induction m with
  | nil => rfl
  | cons kv rest ih =>
    simp only [List.map_cons]
    by_cases hk : kv.1 = k
    · have hkk : (kv.1 == k) = true := beq_iff_eq.mpr hk
      have hfalse : (kv.1 == a) = false := beq_eq_false_iff_ne.mpr (fun hc => h (by rw [← hc, hk]))
      rw [dlookup_cons, dlookup_cons]
      simp_all
    · have hkk : (kv.1 == k) = false := beq_eq_false_iff_ne.mpr hk
      rw [dlookup_cons, dlookup_cons]
      simp only [hkk, if_false]
      by_cases hka : kv.1 == a
      · simp [hka]
      · simp only [hka, if_false, ih]
        simp [hka]

theorem dlookup_dinsert_ne (m : List (String × α)) (k a : String) (v : α) (h : ¬ a = k) :
    dlookup (dinsert m k v) a = dlookup m a := by
  by_cases hp : (dlookup m k).isSome
  · rw [dinsert_of_present m k v hp]
    exact dlookup_mapif_ne m k a v h
  · rw [dinsert_of_absent m k v (Option.not_isSome_iff_eq_none.mp hp)]
    rw [dlookup_append_single]
    cases hm : dlookup m a with
    | some w => rfl
    | none =>
      have hf : (k == a) = false := beq_eq_false_iff_ne.mpr (fun hc => h hc.symm)
      simp [hf]

theorem dlookup_foldl_dinsert_none (a : String) :
    ∀ (nodes : List GNode) (m0 : List (String × GNode)),
      a ∉ nodes.map GNode.id → dlookup m0 a = none →
      dlookup (nodes.foldl (fun m n => dinsert m n.id n) m0) a = none := by
  intro nodes
  induction nodes with
  | nil => intro m0 _ h0; exact h0
  | cons n rest ih =>
    intro m0 h h0
    simp only [List.map_cons, List.mem_cons] at h
    push_neg at h
    simp only [List.foldl_cons]
    apply ih _ h.2
    rw [dlookup_dinsert_ne m0 n.id a n h.1]
    exact h0

theorem dlookup_append_single_isSome (m : List (String × α)) (k a : String) (v : α) :
    (dlookup (m ++ [(k, v)]) a).isSome = ((dlookup m a).isSome || (k == a)) := by
  rw [dlookup_append_single]
  cases hm : dlookup m a with
  | some w => rfl
  | none => by_cases hk : k == a <;> simp [hk]

theorem bgStepTgt_pres (st : List (String × GNode) × List (String × Nat)) (e : GEdge)
    {a : String} {v : GNode} (h : dlookup st.1 a = some v) :
    dlookup (bgStepTgt st e).1 a = some v := by
  unfold bgStepTgt
  split
  · exact h
  · exact dsetdefault_pres _ _ h

theorem bgStepSrc_pres (st : List (String × GNode) × List (String × Nat)) (e : GEdge)
    {a : String} {v : GNode} (h : dlookup st.1 a = some v) :
    dlookup (bgStepSrc st e).1 a = some v := by
  unfold bgStepSrc
  split
  · exact h
  · exact dsetdefault_pres _ _ h

theorem bgStep_pres (st : List (String × GNode) × List (String × Nat)) (e : GEdge)
    {a : String} {v : GNode} (h : dlookup st.1 a = some v) :
    dlookup (bgStep st e).1 a = some v :=
  bgStepSrc_pres _ _ (bgStepTgt_pres _ _ h)

theorem bgStepTgt_sync (st : List (String × GNode) × List (String × Nat)) (e : GEdge)
    (hs : syncSt st) : syncSt (bgStepTgt st e) := by
  unfold bgStepTgt
  intro a
  split
  · rename_i h1
    rw [dincr_eq_mapval, dlookup_mapval_isSome]
    exact hs a
  · rename_i h1
    have habs2 : dlookup st.2 e.tgt = none := by
      cases hm : dlookup st.2 e.tgt with
      | some w => rw [hm] at h1; simp at h1
      | none => rfl
    have habs1 : dlookup st.1 e.tgt = none := by
      have h2 := hs e.tgt
      rw [habs2] at h2
      cases hm : dlookup st.1 e.tgt with
      | some w => rw [hm] at h2; simp at h2
      | none => rfl
    rw [dsetdefault_of_absent _ _ _ habs1, dinsert_of_absent _ _ _ habs2]
    rw [dlookup_append_single_isSome, dlookup_append_single_isSome, hs a]

theorem bgStepSrc_sync (st : List (String × GNode) × List (String × Nat)) (e : GEdge)
    (hs : syncSt st) : syncSt (bgStepSrc st e) := by
  unfold bgStepSrc
  intro a
  split
  · exact hs a
  · rename_i h1
    have habs1 : dlookup st.1 e.src = none := by
      cases hm : dlookup st.1 e.src with
      | some w => rw [hm] at h1; simp at h1
      | none => rfl
    have habs2 : dlookup st.2 e.src = none := by
      have h2 := hs e.src
      rw [habs1] at h2
      cases hm : dlookup st.2 e.src with
      | some w => rw [hm] at h2; simp at h2
      | none => rfl
    rw [dsetdefault_of_absent _ _ _ habs1, dsetdefault_of_absent _ _ _ habs2]
    rw [dlookup_append_single_isSome, dlookup_append_single_isSome, hs a]

theorem bgStep_sync (st : List (String × GNode) × List (String × Nat)) (e : GEdge)
    (hs : syncSt st) : syncSt (bgStep st e) :=
  bgStepSrc_sync _ _ (bgStepTgt_sync _ _ hs)

theorem bgStepTgt_ph (declared : List String) (st : List (String × GNode) × List (String × Nat))
    (e : GEdge) (hp : phSt declared st) : phSt declared (bgStepTgt st e) := by
  unfold bgStepTgt
  intro a v hl ha
  split at hl
  · exact hp a v hl ha
  · rcases dsetdefault_lookup_cases hl with h | ⟨hak, hvx⟩
    · exact hp a v h ha
    · rw [hvx, hak]

theorem bgStepSrc_ph (declared : List String) (st : List (String × GNode) × List (String × Nat))
    (e : GEdge) (hp : phSt declared st) : phSt declared (bgStepSrc st e) := by
  unfold bgStepSrc
  intro a v hl ha
  split at hl
  · exact hp a v hl ha
  · rcases dsetdefault_lookup_cases hl with h | ⟨hak, hvx⟩
    · exact hp a v h ha
    · rw [hvx, hak]

theorem bgStep_ph (declared : List String) (st : List (String × GNode) × List (String × Nat))
    (e : GEdge) (hp : phSt declared st) : phSt declared (bgStep st e) :=
  bgStepSrc_ph _ _ _ (bgStepTgt_ph _ _ _ hp)

theorem bgStepTgt_after (st : List (String × GNode) × List (String × Nat)) (e : GEdge)
    (hs : syncSt st) : (dlookup (bgStepTgt st e).1 e.tgt).isSome := by
  unfold bgStepTgt
  split
  · rename_i h1
    rw [hs e.tgt]
    exact h1
  · exact dsetdefault_self_isSome _ _ _

theorem bgStepSrc_after (st : List (String × GNode) × List (String × Nat)) (e : GEdge) :
    (dlookup (bgStepSrc st e).1 e.src).isSome := by
  unfold bgStepSrc
  split
  · rename_i h1
    exact h1
  · exact dsetdefault_self_isSome _ _ _

theorem bgStep_after (st : List (String × GNode) × List (String × Nat)) (e : GEdge)
    (hs : syncSt st) :
    (dlookup (bgStep st e).1 e.src).isSome ∧ (dlookup (bgStep st e).1 e.tgt).isSome := by
  constructor
  · exact bgStepSrc_after _ _
  · have h1 := bgStepTgt_after st e hs
    obtain ⟨v, hv⟩ := Option.isSome_iff_exists.mp h1
    unfold bgStep
    rw [bgStepSrc_pres _ _ hv]
    rfl

theorem foldl_bgStep_pres (edges : List GEdge)
    (st : List (String × GNode) × List (String × Nat)) {a : String} {v : GNode}
    (h : dlookup st.1 a = some v) :
    dlookup (edges.foldl bgStep st).1 a = some v := by
  induction edges generalizing st with
  | nil => exact h
  | cons e rest ih => exact ih _ (bgStep_pres _ _ h)

theorem foldl_bgStep_sync (edges : List GEdge)
    (st : List (String × GNode) × List (String × Nat)) (hs : syncSt st) :
    syncSt (edges.foldl bgStep st) := by
  induction edges generalizing st with
  | nil => exact hs
  | cons e rest ih => exact ih _ (bgStep_sync _ _ hs)

theorem foldl_bgStep_ph (declared : List String) (edges : List GEdge)
    (st : List (String × GNode) × List (String × Nat)) (hp : phSt declared st) :
    phSt declared (edges.foldl bgStep st) := by
  induction edges generalizing st with
  | nil => exact hp
  | cons e rest ih => exact ih _ (bgStep_ph _ _ _ hp)

theorem foldl_bgStep_endpoint (edges : List GEdge)
    (st : List (String × GNode) × List (String × Nat)) (hs : syncSt st) :
    ∀ e ∈ edges, (dlookup (edges.foldl bgStep st).1 e.src).isSome ∧
      (dlookup (edges.foldl bgStep st).1 e.tgt).isSome := by
  induction edges generalizing st with
  | nil => intro e he; cases he
  | cons e0 rest ih =>
    intro e he
    rcases List.mem_cons.mp he with rfl | hmem
    · obtain ⟨hsrc, htgt⟩ := bgStep_after st e hs
      obtain ⟨v1, hv1⟩ := Option.isSome_iff_exists.mp hsrc
      obtain ⟨v2, hv2⟩ := Option.isSome_iff_exists.mp htgt
      constructor
      · rw [List.foldl_cons, foldl_bgStep_pres rest _ hv1]; rfl
      · rw [List.foldl_cons, foldl_bgStep_pres rest _ hv2]; rfl
    · exact ih (bgStep st e0) (bgStep_sync _ _ hs) e hmem

theorem build_graph_sync (spec : GSpec) : syncSt (build_graph spec) := by
  unfold build_graph
  apply foldl_bgStep_sync
  intro a
  exact (dlookup_mapval_isSome _ (fun _ => (0 : Nat)) a).symm

theorem build_graph_ph (spec : GSpec) : phSt (spec.nodes.map GNode.id) (build_graph spec) := by
  unfold build_graph
  apply foldl_bgStep_ph
  intro a v hl ha
  exfalso
  unfold nodesById0 at hl
  rw [dlookup_foldl_dinsert_none a spec.nodes [] ha rfl] at hl
  cases hl

/-- C1: an edge endpoint missing from the declared nodes is
    synthesized as a placeholder (shape rect, label equal to the id
    string) by build_graph, both endpoints of every edge are present
    in the resulting node dict, and the edge list of the graph keeps
    the edge. -/
theorem C1_no_edge_dropped (spec : GSpec) (e : GEdge) (he : e ∈ spec.edges) :
    (dlookup (build_graph spec).1 e.src).isSome ∧
    (dlookup (build_graph spec).1 e.tgt).isSome ∧
    (e.src ∉ spec.nodes.map GNode.id →
      dlookup (build_graph spec).1 e.src = some (phNode e.src)) ∧
    (e.tgt ∉ spec.nodes.map GNode.id →
      dlookup (build_graph spec).1 e.tgt = some (phNode e.tgt)) ∧
    (phNode e.tgt).shape = "rect" ∧ (phNode e.tgt).label = e.tgt ∧
    e ∈ spec.edges := by
  have hph := build_graph_ph spec
  have hend : ∀ e2 ∈ spec.edges, (dlookup (build_graph spec).1 e2.src).isSome ∧
      (dlookup (build_graph spec).1 e2.tgt).isSome := by
    unfold build_graph
    apply foldl_bgStep_endpoint
    intro a
    exact (dlookup_mapval_isSome _ (fun _ => (0 : Nat)) a).symm
  obtain ⟨hs, ht⟩ := hend e he
  refine ⟨hs, ht, ?_, ?_, rfl, rfl, he⟩
  · intro hnd
    obtain ⟨v, hv⟩ := Option.isSome_iff_exists.mp hs
    rw [hv, hph e.src v hv hnd]
  · intro hnd
    obtain ⟨v, hv⟩ := Option.isSome_iff_exists.mp ht
    rw [hv, hph e.tgt v hv hnd]

theorem C1_no_edge_dropped_witness :
    dlookup (build_graph c1spec).1 "ghost" = some (phNode "ghost") ∧
    (phNode "ghost").shape = "rect" ∧ (phNode "ghost").label = "ghost" := by
  have h := C1_no_edge_dropped c1spec ⟨"n1", "ghost", ""⟩ (by decide)
  exact ⟨h.2.2.2.1 (by decide), h.2.2.2.2.1, h.2.2.2.2.2.1⟩

/-! ## Claim C6: classify (guess_key_from_style) -/

/-- C6 counterexample: on an edgeStyle value carrying the EdgeStyle
    marker in a non-trailing position the source removes every
    occurrence, while the claim's trailing-suffix strip (which leaves
    the value unchanged here) demands a different key. -/
theorem C6_classify_counterexample :
    guess_key_from_style "edgeStyle=EdgeStyleX;" true = "edge.X" ∧
    "edge.X" ≠ "edge." ++ stripTrailingEdgeStyleSpec "EdgeStyleX" := by
  constructor
  · decide
  · decide

/-- C6 amended: classify maps an mxgraph-namespaced shape to the part
    after the namespace marker; an edge style with a truthy edgeStyle
    attribute maps to edge. plus the value with every occurrence of
    EdgeStyle removed (not only a trailing suffix); otherwise a truthy
    endArrow, then startArrow value is used, else edge.orthogonal; the
    two concrete examples of the claim hold. -/
theorem C6_classify_amended :
    (∀ style sh, dlookupLast (findallKV style) "shape" = some sh →
      pyStartsWith sh "mxgraph." = true →
      guess_key_from_style style false = String.mk (sh.data.drop 8)) ∧
    (∀ style v, dlookupLast (findallKV style) "edgeStyle" = some v → v ≠ "" →
      guess_key_from_style style true = "edge." ++ pyReplace v "EdgeStyle" "") ∧
    (∀ style v, (dlookupLast (findallKV style) "edgeStyle").getD "" = "" →
      (dlookupLast (findallKV style) "endArrow").getD "" = v → v ≠ "" →
      guess_key_from_style style true = "edge." ++ v) ∧
    (∀ style v, (dlookupLast (findallKV style) "edgeStyle").getD "" = "" →
      (dlookupLast (findallKV style) "endArrow").getD "" = "" →
      (dlookupLast (findallKV style) "startArrow").getD "" = v → v ≠ "" →
      guess_key_from_style style true = "edge." ++ v) ∧
    (∀ style, (dlookupLast (findallKV style) "edgeStyle").getD "" = "" →
      (dlookupLast (findallKV style) "endArrow").getD "" = "" →
      (dlookupLast (findallKV style) "startArrow").getD "" = "" →
      guess_key_from_style style true = "edge.orthogonal") ∧
    guess_key_from_style "shape=mxgraph.foo.bar;" false = "foo.bar" ∧
    guess_key_from_style "edgeStyle=entityRelationEdgeStyle;" true = "edge.entityRelation" := by
  refine ⟨?_, ?_, ?_, ?_, ?_, by decide, by decide⟩
  · intro style sh h1 h2
    simp [guess_key_from_style, h1, h2]
  · intro style v h1 h2
    simp [guess_key_from_style, h1, h2]
  · intro style v h1 h2 h3
    simp [guess_key_from_style, h1, h2, h3]
  · intro style v h1 h2 h3 h4
    simp [guess_key_from_style, h1, h2, h3, h4]
  · intro style h1 h2 h3
    simp [guess_key_from_style, h1, h2, h3]

theorem C6_classify_amended_witness :
    guess_key_from_style "shape=mxgraph.a.b;" false = String.mk ("mxgraph.a.b".data.drop 8) ∧
    guess_key_from_style "edgeStyle=fooEdgeStyleBarEdgeStyle;" true =
      "edge." ++ pyReplace "fooEdgeStyleBarEdgeStyle" "EdgeStyle" "" ∧
    guess_key_from_style "endArrow=block;" true = "edge." ++ "block" ∧
    guess_key_from_style "startArrow=oval;" true = "edge." ++ "oval" ∧
    guess_key_from_style "rounded=1;" true = "edge.orthogonal" :=
  ⟨C6_classify_amended.1 _ "mxgraph.a.b" (by decide) (by decide),
   C6_classify_amended.2.1 _ "fooEdgeStyleBarEdgeStyle" (by decide) (by decide),
   C6_classify_amended.2.2.1 _ "block" (by decide) (by decide) (by decide),
   C6_classify_amended.2.2.2.1 _ "oval" (by decide) (by decide) (by decide) (by decide),
   C6_classify_amended.2.2.2.2.1 _ (by decide) (by decide) (by decide)⟩

/-! ## Claim C7: style reference resolution -/

/-- C7 counterexample: a literal style reference carrying trailing
    whitespace is not returned verbatim; the source strips it before
    returning. -/
theorem C7_resolution_counterexample :
    style_from_key_or_literal (some "shape=rect; ") [] = some "shape=rect;" ∧
    "shape=rect;" ≠ "shape=rect; " := by
  constructor
  · decide
  · decide

/-- C7 amended: a nonempty reference whose stripped form starts with
    the shape marker (case-insensitively) or contains a semicolon is
    treated as a literal style and returned after whitespace trimming
    (verbatim when already trimmed); any other nonempty reference is
    looked up by its trimmed form as an exact key, an absent key
    yielding no result; when the override yields no result and no
    preferred-key match exists, the caller applies the structural
    default keyed by shape kind. -/
theorem C7_resolution_amended :
    (∀ (a : String) (styles : List (String × String)), a ≠ "" →
      (pyStartsWith (pyLower (pyStrip a)) "shape=" || pyContainsChar (pyStrip a) ';') = true →
      style_from_key_or_literal (some a) styles = some (pyStrip a)) ∧
    (∀ (a : String) (styles : List (String × String)), a ≠ "" →
      (pyStartsWith (pyLower (pyStrip a)) "shape=" || pyContainsChar (pyStrip a) ';') = false →
      style_from_key_or_literal (some a) styles = dlookup styles (pyStrip a)) ∧
    (∀ (shape : String) (html : Bool) (styles : List (String × String))
      (pref : List (List String)) (override : Option String),
      truthy (style_from_key_or_literal override styles) = none →
      pref.findSome? (fun inc => truthy (find_style styles inc ["edge"])) = none →
      style_for_vertex shape html styles pref override = default_vertex_style shape html) := by
  refine ⟨?_, ?_, ?_⟩
  · intro a styles ha hlit
    simp [style_from_key_or_literal, ha, hlit]
  · intro a styles ha hlit
    simp only [Bool.or_eq_false_iff] at hlit
    simp [style_from_key_or_literal, ha, hlit.1, hlit.2]
  · intro shape html styles pref override h1 h2
    simp [style_for_vertex, h1, h2]

theorem C7_resolution_amended_witness :
    style_from_key_or_literal (some "shape=rect;") [("x.y", "shape=ellipse;")] =
      some "shape=rect;" ∧
    style_from_key_or_literal (some "x.y") [("x.y", "shape=ellipse;")] =
      some "shape=ellipse;" ∧
    style_from_key_or_literal (some "absent.key") [("x.y", "shape=ellipse;")] = none ∧
    style_for_vertex "rect" true [] [] none = default_vertex_style "rect" true :=
  ⟨by
    have h := C7_resolution_amended.1 "shape=rect;" [("x.y", "shape=ellipse;")]
      (by decide) (by decide)
    simpa using h,
   by
    have h := C7_resolution_amended.2.1 "x.y" [("x.y", "shape=ellipse;")]
      (by decide) (by decide)
    simpa using h,
   by
    have h := C7_resolution_amended.2.1 "absent.key" [("x.y", "shape=ellipse;")]
      (by decide) (by decide)
    simpa using h,
   C7_resolution_amended.2.2 "rect" true [] [] none (by decide) (by decide)⟩

/-! ## Claim C5: add_unique is idempotent on duplicate content -/

theorem addUniqueGo_appends (m : List (String × String)) (k s_norm style : String)
    (hnone : m.find? (fun kv => normalize_style kv.2 == s_norm) = none) :
    ∀ fuel i, ∃ r, addUniqueGo m k s_norm style i fuel = (r, m ++ [(r, style)]) := by
  intro fuel
  induction fuel with
  | zero => intro i; exact ⟨_, rfl⟩
  | succ f ih =>
    intro i
    simp only [addUniqueGo]
    cases hl : dlookup m (k ++ "-" ++ natToString i) with
    | some v =>
      have hmem := dlookup_mem hl
      have hv : (normalize_style v == s_norm) = false := by
        have := List.find?_eq_none.mp hnone _ hmem
        simpa using this
      simp only [hv, Bool.false_eq_true, if_false]
      exact ih (i + 1)
    | none => exact ⟨_, rfl⟩

/-- Outcome of one add_unique call: either the first fingerprint match
    is returned with the mapping untouched, or no entry matches and
    the style is appended under the chosen key. -/
theorem add_unique_spec (m : List (String × String)) (bk s : String) :
    (∃ kv, m.find? (fun kv2 => normalize_style kv2.2 == normalize_style s) = some kv ∧
      add_unique m bk s = (kv.1, m)) ∨
    (m.find? (fun kv2 => normalize_style kv2.2 == normalize_style s) = none ∧
      ∃ r, add_unique m bk s = (r, m ++ [(r, s)])) := by
  unfold add_unique
  cases hf : m.find? (fun kv => normalize_style kv.2 == normalize_style s) with
  | some kv =>
    left
    exact ⟨kv, rfl, by simp [hf]⟩
  | none =>
    right
    refine ⟨rfl, ?_⟩
    by_cases hk : (m.find? (fun kv => kv.1 == safe_key bk)).isSome
    · simp only [hf, hk, if_true]
      exact addUniqueGo_appends m _ _ s hf (m.length + 1) 1
    · simp [hf, hk]

/-- C5: inserting a style and then inserting any style with the same
    normalized fingerprint under any other base key returns the same
    key both times and leaves the mapping unchanged. -/
theorem C5_insertUnique_idempotent (m : List (String × String)) (k1 k2 s s2 : String)
    (h : normalize_style s2 = normalize_style s) :
    (add_unique (add_unique m k1 s).2 k2 s2).1 = (add_unique m k1 s).1 ∧
    (add_unique (add_unique m k1 s).2 k2 s2).2 = (add_unique m k1 s).2 := by
  rcases add_unique_spec m k1 s with ⟨kv, hf, heq⟩ | ⟨hf, r, heq⟩
  · rw [heq]
    unfold add_unique
    rw [h]
    simp [hf]
  · rw [heq]
    unfold add_unique
    rw [h]
    have hfind : ((m ++ [(r, s)]).find?
        (fun kv => normalize_style kv.2 == normalize_style s)) = some (r, s) := by
      rw [List.find?_append, hf]
      simp
    simp [hfind]

theorem C5_insertUnique_idempotent_witness :
    (add_unique (add_unique [] "uml.class" "b=2;a=1;").2 "other.key" "a=1;b=2;").1 =
      (add_unique [] "uml.class" "b=2;a=1;").1 ∧
    (add_unique (add_unique [] "uml.class" "b=2;a=1;").2 "other.key" "a=1;b=2;").2 =
      (add_unique [] "uml.class" "b=2;a=1;").2 :=
  C5_insertUnique_idempotent [] "uml.class" "other.key" "b=2;a=1;" "a=1;b=2;" (by decide)

theorem normKVLe_total : ∀ p q : String × String, normKVLe p q ∨ normKVLe q p := by
  intro p q
  unfold normKVLe
  cases hq : strLtB (pyLower q.1).data (pyLower p.1).data with
  | false => exact Or.inl rfl
  | true => exact Or.inr (strLtB_asymm _ _ hq)

theorem sorted_lt_of_sorted_le_nodup (l : List (String × String))
    (hs : List.Sorted normKVLe l) (hn : (l.map (fun p => pyLower p.1)).Nodup) :
    List.Sorted normKVLt l := by
  have hne : List.Pairwise (fun a b : String × String => pyLower a.1 ≠ pyLower b.1) l :=
    List.pairwise_map.mp hn
  have hand := List.Pairwise.and hs hne
  apply hand.imp
  intro a b hab
  obtain ⟨hle, hne2⟩ := hab
  unfold normKVLe at hle
  unfold normKVLt
  cases hlt : strLtB (pyLower a.1).data (pyLower b.1).data with
  | true => rfl
  | false =>
    exfalso
    apply hne2
    have := strLtB_conn _ _ hlt hle
    have h2 := congrArg String.mk this
    simpa using h2

/-- C4 counterexample: two style strings made of the same pairs in
    different orders (a duplicated key) normalize differently, because
    the stable sort keeps equal keys in input order. -/
theorem C4_normalize_counterexample :
    (findallKV "a=1;a=2;").Perm (findallKV "a=2;a=1;") ∧
    normalize_style "a=1;a=2;" ≠ normalize_style "a=2;a=1;" := by
  constructor
  · have h1 : findallKV "a=1;a=2;" = [("a", "1"), ("a", "2")] := by decide
    have h2 : findallKV "a=2;a=1;" = [("a", "2"), ("a", "1")] := by decide
    rw [h1, h2]
    exact List.Perm.swap ("a", "2") ("a", "1") []
  · decide

/-- C4 amended: normalize is order-independent on style strings whose
    parsed pairs are a permutation of each other and whose trimmed
    keys are pairwise distinct case-insensitively; in particular
    normalize("b=2;a=1;") equals normalize("a=1;b=2;"). -/
theorem C4_normalize_order_independent (s1 s2 : String)
    (hperm : (findallKV s1).Perm (findallKV s2))
    (hnodup : ((styleKV s1).map (fun p => pyLower p.1)).Nodup) :
    normalize_style s1 = normalize_style s2 := by
  have hperm2 : (styleKV s1).Perm (styleKV s2) := by
    unfold styleKV
    exact (hperm.map _).filter _
  haveI : IsTotal (String × String) normKVLe := ⟨normKVLe_total⟩
  haveI : IsTrans (String × String) normKVLe :=
    ⟨fun p q r h1 h2 => strLtB_le_trans _ _ _ h1 h2⟩
  haveI : IsAntisymm (String × String) normKVLt :=
    ⟨fun p q h1 h2 =>
      absurd (strLtB_asymm _ _ h1) (by rw [h2]; exact fun hc => Bool.noConfusion hc)⟩
  have hsorted1 : List.Sorted normKVLe (List.insertionSort normKVLe (styleKV s1)) :=
    List.sorted_insertionSort normKVLe (styleKV s1)
  have hsorted2 : List.Sorted normKVLe (List.insertionSort normKVLe (styleKV s2)) :=
    List.sorted_insertionSort normKVLe (styleKV s2)
  have hn1 : ((List.insertionSort normKVLe (styleKV s1)).map (fun p => pyLower p.1)).Nodup :=
    (((List.perm_insertionSort normKVLe (styleKV s1))).map (fun p => pyLower p.1)).nodup_iff.mpr
      hnodup
  have hn2 : ((List.insertionSort normKVLe (styleKV s2)).map (fun p => pyLower p.1)).Nodup := by
    apply (((List.perm_insertionSort normKVLe (styleKV s2))).map (fun p => pyLower p.1)).nodup_iff.mpr
    exact ((hperm2.map (fun p => pyLower p.1))).nodup_iff.mp hnodup
  have hperm12 : (List.insertionSort normKVLe (styleKV s1)).Perm
      (List.insertionSort normKVLe (styleKV s2)) :=
    (List.perm_insertionSort normKVLe (styleKV s1)).trans
      (hperm2.trans (List.perm_insertionSort normKVLe (styleKV s2)).symm)
  have heq : List.insertionSort normKVLe (styleKV s1) =
      List.insertionSort normKVLe (styleKV s2) :=
    List.eq_of_perm_of_sorted hperm12
      (sorted_lt_of_sorted_le_nodup _ hsorted1 hn1)
      (sorted_lt_of_sorted_le_nodup _ hsorted2 hn2)
  unfold normalize_style
  rw [heq]

theorem C4_normalize_order_independent_witness :
    normalize_style "b=2;a=1;" = normalize_style "a=1;b=2;" := by
  apply C4_normalize_order_independent
  · have h1 : findallKV "b=2;a=1;" = [("b", "2"), ("a", "1")] := by decide
    have h2 : findallKV "a=1;b=2;" = [("a", "1"), ("b", "2")] := by decide
    rw [h1, h2]
    exact List.Perm.swap ("a", "1") ("b", "2") []
  · decide

/-! ## Claim C3: the automatic direction heuristic -/

theorem dinsert_ne_nil (m : List (String × α)) (k : String) (v : α) : dinsert m k v ≠ [] := by
  unfold dinsert
  split
  · rename_i h
    intro hc
    rw [List.map_eq_nil] at hc
    subst hc
    simp [List.find?] at h
  · intro hc
    exact absurd (congrArg List.length hc) (by simp)

theorem dsetdefault_ne_nil (m : List (String × α)) (k : String) (v : α) (h : m ≠ []) :
    dsetdefault m k v ≠ [] := by
  unfold dsetdefault
  split
  · exact h
  · intro hc
    exact absurd (congrArg List.length hc) (by simp)

theorem nodesById0_ne_nil (spec : GSpec) (h : spec.nodes ≠ []) : nodesById0 spec ≠ [] := by
  unfold nodesById0
  have hgen : ∀ (nodes : List GNode) (m0 : List (String × GNode)), m0 ≠ [] →
      nodes.foldl (fun m n => dinsert m n.id n) m0 ≠ [] := by
    intro nodes
    induction nodes with
    | nil => intro m0 h0; exact h0
    | cons n rest ih => intro m0 h0; exact ih _ (dinsert_ne_nil _ _ _)
  cases hn : spec.nodes with
  | nil => exact absurd hn h
  | cons n rest =>
    simp only [List.foldl_cons]
    exact hgen rest _ (dinsert_ne_nil _ _ _)

theorem bgStep_nbi_ne_nil (st : List (String × GNode) × List (String × Nat)) (e : GEdge)
    (h : st.1 ≠ []) : (bgStep st e).1 ≠ [] := by
  unfold bgStep bgStepSrc bgStepTgt
  split
  · split
    · exact h
    · exact dsetdefault_ne_nil _ _ _ h
  · split
    · exact dsetdefault_ne_nil _ _ _ h
    · exact dsetdefault_ne_nil _ _ _ (dsetdefault_ne_nil _ _ _ h)

theorem build_graph_nbi_ne_nil (spec : GSpec) (h : spec.nodes ≠ []) :
    (build_graph spec).1 ≠ [] := by
  unfold build_graph
  have hgen : ∀ (edges : List GEdge) (st : List (String × GNode) × List (String × Nat)),
      st.1 ≠ [] → (edges.foldl bgStep st).1 ≠ [] := by
    intro edges
    induction edges with
    | nil => intro st h0; exact h0
    | cons e rest ih => intro st h0; exact ih _ (bgStep_nbi_ne_nil _ _ h0)
  exact hgen spec.edges _ (nodesById0_ne_nil spec h)

theorem bfsVisit_prefix (adj : String → List String) (u : String)
    (st : List (String × Nat) × List String) :
    ∃ ext, (bfsVisit adj u st).1 = st.1 ++ ext := by
  unfold bfsVisit
  generalize (dlookup st.1 u).getD 0 = du
  generalize adj u = l
  induction l generalizing st with
  | nil => exact ⟨[], by simp⟩
  | cons v rest ih =>
    simp only [List.foldl_cons]
    by_cases hv : (dlookup st.1 v).isSome
    · simp only [hv, if_true]
      exact ih st
    · simp only [hv, Bool.false_eq_true, if_false]
      obtain ⟨ext, hext⟩ := ih (st.1 ++ [(v, du + 1)], st.2 ++ [v])
      exact ⟨[(v, du + 1)] ++ ext, by rw [hext]; simp⟩

theorem bfsGo_prefix (adj : String → List String) :
    ∀ (f : Nat) (q : List String) (dist : List (String × Nat)),
      ∃ ext, bfsGo adj f q dist = dist ++ ext := by
  intro f
  induction f with
  | zero => intro q dist; exact ⟨[], by simp [bfsGo]⟩
  | succ f ih =>
    intro q dist
    cases q with
    | nil => exact ⟨[], by simp [bfsGo]⟩
    | cons u rest =>
      simp only [bfsGo]
      obtain ⟨ext1, hext1⟩ := bfsVisit_prefix adj u (dist, rest)
      obtain ⟨ext2, hext2⟩ := ih (bfsVisit adj u (dist, rest)).2 (bfsVisit adj u (dist, rest)).1
      exact ⟨ext1 ++ ext2, by rw [hext2, hext1]; simp⟩

theorem bfsDistOf_ne_nil (spec : GSpec) (h : spec.nodes ≠ []) : bfsDistOf spec ≠ [] := by
  unfold bfsDistOf
  have hnbi := build_graph_nbi_ne_nil spec h
  obtain ⟨ext, hext⟩ := bfsGo_prefix (adjOf spec) ((build_graph spec).1.length + 1)
    (if (((build_graph spec).2.filter (fun kv => kv.2 == 0)).map (fun kv => kv.1)).isEmpty then
      (match (build_graph spec).1 with
       | [] => []
       | kv :: _ => [kv.1])
     else ((build_graph spec).2.filter (fun kv => kv.2 == 0)).map (fun kv => kv.1))
    ((if (((build_graph spec).2.filter (fun kv => kv.2 == 0)).map (fun kv => kv.1)).isEmpty then
      (match (build_graph spec).1 with
       | [] => []
       | kv :: _ => [kv.1])
     else ((build_graph spec).2.filter (fun kv => kv.2 == 0)).map (fun kv => kv.1)).map
      (fun k => (k, (0 : Nat))))
  rw [hext]
  intro hc
  rw [List.append_eq_nil] at hc
  have hq := hc.1
  rw [List.map_eq_nil] at hq
  split at hq
  · cases hm : (build_graph spec).1 with
    | nil => exact hnbi hm
    | cons kv rest =>
      rw [hm] at hq
      cases hq
  · rename_i hroots
    rw [hq] at hroots
    simp at hroots

/-- C3: on a spec with at least one node the automatic choice returns
    LR exactly when the largest BFS layer population exceeds the
    number of distinct layers, and TD otherwise; the star selects LR
    with maxPop 4 and layerCount 2, the chain selects TD with maxPop 1
    and layerCount 5. -/
theorem C3_direction_heuristic :
    (∀ spec : GSpec, spec.nodes ≠ [] →
      choose_direction_auto spec =
        if layerCountOf spec < maxPopOf spec then "LR" else "TD") ∧
    (choose_direction_auto c3star = "LR" ∧ maxPopOf c3star = 4 ∧ layerCountOf c3star = 2) ∧
    (choose_direction_auto c3chain = "TD" ∧ maxPopOf c3chain = 1 ∧ layerCountOf c3chain = 5) := by
  refine ⟨?_, ⟨by decide, by decide, by decide⟩, ⟨by decide, by decide, by decide⟩⟩
  intro spec h
  have hdist : bfsDistOf spec ≠ [] := bfsDistOf_ne_nil spec h
  unfold choose_direction_auto maxPopOf layerCountOf
  have hvals : (bfsDistOf spec).map (fun p => p.2) ≠ [] := by
    intro hc
    rw [List.map_eq_nil_iff] at hc
    exact hdist hc
  have hdedup : ((bfsDistOf spec).map (fun p => p.2)).dedup ≠ [] := by
    intro hc
    rw [List.dedup_eq_nil] at hc
    exact hvals hc
  have hcounts : (((bfsDistOf spec).map (fun p => p.2)).dedup.map
      (fun d => ((bfsDistOf spec).map (fun p => p.2)).count d)).isEmpty = false := by
    rw [List.isEmpty_eq_false_iff_exists_mem]
    cases hd : ((bfsDistOf spec).map (fun p => p.2)).dedup with
    | nil => exact absurd hd hdedup
    | cons d rest =>
      exact ⟨_, List.mem_map_of_mem _ (List.mem_cons_self d rest)⟩
  have hlen : (((bfsDistOf spec).map (fun p => p.2)).dedup).length ≠ 0 := by
    intro hc
    exact hdedup (List.length_eq_zero.mp hc)
  simp only [hcounts, Bool.false_eq_true, if_false, hlen]

theorem C3_direction_heuristic_witness :
    choose_direction_auto c3star =
      if layerCountOf c3star < maxPopOf c3star then "LR" else "TD" :=
  C3_direction_heuristic.1 c3star (by decide)

/-! ## Claim C2: key multiset of the position map -/

theorem keysOf_mapif (m : List (String × α)) (k : String) (v : α) :
    keysOf (m.map (fun kv => if kv.1 == k then (kv.1, v) else kv)) = keysOf m := by
  unfold keysOf
  rw [List.map_map]
  apply List.map_congr_left
  intro kv _
  by_cases h : kv.1 = k <;> simp [h]

theorem nodup_keys_append_new (m : List (String × α)) (k : String) (v : α)
    (hn : (keysOf m).Nodup) (habs : dlookup m k = none) :
    (keysOf (m ++ [(k, v)])).Nodup := by
  rw [keysOf_append]
  rw [List.nodup_append]
  refine ⟨hn, List.nodup_singleton k, ?_⟩
  intro a ha hb
  have hk : a = k := by simpa [keysOf] using hb
  subst hk
  exact (dlookup_none_iff m a).mp habs ha

theorem nodup_keys_dinsert (m : List (String × α)) (k : String) (v : α)
    (hn : (keysOf m).Nodup) : (keysOf (dinsert m k v)).Nodup := by
  by_cases hp : (dlookup m k).isSome
  · rw [dinsert_of_present m k v hp, keysOf_mapif]
    exact hn
  · rw [dinsert_of_absent m k v (Option.not_isSome_iff_eq_none.mp hp)]
    exact nodup_keys_append_new m k v hn (Option.not_isSome_iff_eq_none.mp hp)

theorem nodup_keys_dsetdefault (m : List (String × α)) (k : String) (v : α)
    (hn : (keysOf m).Nodup) : (keysOf (dsetdefault m k v)).Nodup := by
  by_cases hp : (dlookup m k).isSome
  · rw [dsetdefault_of_present m k v hp]
    exact hn
  · rw [dsetdefault_of_absent m k v (Option.not_isSome_iff_eq_none.mp hp)]
    exact nodup_keys_append_new m k v hn (Option.not_isSome_iff_eq_none.mp hp)

theorem nodup_keys_dincr (m : List (String × Nat)) (k : String)
    (hn : (keysOf m).Nodup) : (keysOf (dincr m k)).Nodup := by
  rw [dincr_eq_mapval, keysOf_mapval]
  exact hn

theorem nodesById0_keys_nodup (spec : GSpec) : (keysOf (nodesById0 spec)).Nodup := by
  unfold nodesById0
  have hgen : ∀ (nodes : List GNode) (m0 : List (String × GNode)), (keysOf m0).Nodup →
      (keysOf (nodes.foldl (fun m n => dinsert m n.id n) m0)).Nodup := by
    intro nodes
    induction nodes with
    | nil => intro m0 h0; exact h0
    | cons n rest ih => intro m0 h0; exact ih _ (nodup_keys_dinsert _ _ _ h0)
  exact hgen spec.nodes [] List.nodup_nil

theorem bgStepTgt_ind_keys_nodup (st : List (String × GNode) × List (String × Nat)) (e : GEdge)
    (hn : (keysOf st.2).Nodup) : (keysOf (bgStepTgt st e).2).Nodup := by
  unfold bgStepTgt
  split
  · exact nodup_keys_dincr _ _ hn
  · exact nodup_keys_dinsert _ _ _ hn

theorem bgStepSrc_ind_keys_nodup (st : List (String × GNode) × List (String × Nat)) (e : GEdge)
    (hn : (keysOf st.2).Nodup) : (keysOf (bgStepSrc st e).2).Nodup := by
  unfold bgStepSrc
  split
  · exact hn
  · exact nodup_keys_dsetdefault _ _ _ hn

theorem build_graph_ind_keys_nodup (spec : GSpec) : (keysOf (build_graph spec).2).Nodup := by
  unfold build_graph
  have hgen : ∀ (edges : List GEdge) (st : List (String × GNode) × List (String × Nat)),
      (keysOf st.2).Nodup → (keysOf (edges.foldl bgStep st).2).Nodup := by
    intro edges
    induction edges with
    | nil => intro st h0; exact h0
    | cons e rest ih =>
      intro st h0
      exact ih _ (bgStepSrc_ind_keys_nodup _ _ (bgStepTgt_ind_keys_nodup _ _ h0))
  apply hgen
  have := keysOf_mapval (nodesById0 spec) (fun _ => (0 : Nat))
  rw [show (fun kv : String × GNode => (kv.1, (0 : Nat))) =
    (fun kv : String × GNode => (kv.1, (fun _ : String × GNode => (0 : Nat)) kv)) from rfl]
  rw [this]
  exact nodesById0_keys_nodup spec

theorem bfsVisit_keys_nodup (adj : String → List String) (u : String)
    (st : List (String × Nat) × List String) (hn : (keysOf st.1).Nodup) :
    (keysOf (bfsVisit adj u st).1).Nodup := by
  unfold bfsVisit
  generalize (dlookup st.1 u).getD 0 = du
  generalize adj u = l
  induction l generalizing st with
  | nil => exact hn
  | cons v rest ih =>
    simp only [List.foldl_cons]
    by_cases hv : (dlookup st.1 v).isSome
    · simp only [hv, if_true]
      exact ih st hn
    · simp only [hv, Bool.false_eq_true, if_false]
      exact ih (st.1 ++ [(v, du + 1)], st.2 ++ [v])
        (nodup_keys_append_new _ _ _ hn (Option.not_isSome_iff_eq_none.mp hv))

theorem bfsGo_keys_nodup (adj : String → List String) :
    ∀ (f : Nat) (q : List String) (dist : List (String × Nat)),
      (keysOf dist).Nodup → (keysOf (bfsGo adj f q dist)).Nodup := by
  intro f
  induction f with
  | zero => intro q dist h; exact h
  | succ f ih =>
    intro q dist h
    cases q with
    | nil => exact h
    | cons u rest =>
      simp only [bfsGo]
      exact ih _ _ (bfsVisit_keys_nodup adj u (dist, rest) h)

theorem bfsDistOf_keys_nodup (spec : GSpec) : (keysOf (bfsDistOf spec)).Nodup := by
  unfold bfsDistOf
  apply bfsGo_keys_nodup
  have hroots : ((((build_graph spec).2.filter (fun kv => kv.2 == 0)).map
      (fun kv => kv.1))).Nodup := by
    have hsub : (((build_graph spec).2.filter (fun kv => kv.2 == 0)).map (fun kv => kv.1)).Sublist
        (keysOf (build_graph spec).2) :=
      List.Sublist.map _ (List.filter_sublist _)
    exact (build_graph_ind_keys_nodup spec).sublist hsub
  have hq0 : (if (((build_graph spec).2.filter (fun kv => kv.2 == 0)).map
        (fun kv => kv.1)).isEmpty then
      (match (build_graph spec).1 with
       | [] => []
       | kv :: _ => [kv.1])
    else ((build_graph spec).2.filter (fun kv => kv.2 == 0)).map (fun kv => kv.1)).Nodup := by
    split
    · cases (build_graph spec).1 with
      | nil => exact List.nodup_nil
      | cons kv rest => exact List.nodup_singleton _
    · exact hroots
  have hkeys : ∀ q0 : List String,
      keysOf (q0.map (fun k => (k, (0 : Nat)))) = q0 := by
    intro q0
    unfold keysOf
    rw [List.map_map]
    exact List.map_id q0
  rw [hkeys]
  exact hq0

/-- Append of pointwise-permuted blocks is a permutation. -/
theorem flatMap_perm_of_pointwise {γ δ : Type} (ds : List γ) (f g : γ → List δ)
    (h : ∀ d ∈ ds, (f d).Perm (g d)) : (ds.flatMap f).Perm (ds.flatMap g) := by
  induction ds with
  | nil => exact List.Perm.refl _
  | cons d rest ih =>
    simp only [List.flatMap_cons]
    exact (h d (List.mem_cons_self d rest)).append
      (ih (fun d2 hd2 => h d2 (List.mem_cons_of_mem _ hd2)))

theorem flatMap_congr_mem {γ δ : Type} (ds : List γ) (f g : γ → List δ)
    (h : ∀ d ∈ ds, f d = g d) : ds.flatMap f = ds.flatMap g := by
  induction ds with
  | nil => rfl
  | cons d rest ih =>
    simp only [List.flatMap_cons]
    rw [h d (List.mem_cons_self d rest), ih (fun d2 hd2 => h d2 (List.mem_cons_of_mem _ hd2))]

/-- Partitioning a pair list by the distinct values of its second
    component and concatenating the parts permutes the list. -/
theorem filter_partition_perm :
    ∀ (ds : List Nat) (l : List (String × Nat)), ds.Nodup → (∀ p ∈ l, p.2 ∈ ds) →
      (ds.flatMap (fun d => (l.filter (fun p => p.2 == d)).map (fun p => p.1))).Perm
        (l.map (fun p => p.1)) := by
  intro ds
  induction ds with
  | nil =>
    intro l _ hcov
    have hl : l = [] := by
      cases l with
      | nil => rfl
      | cons p rest => exact absurd (hcov p (List.mem_cons_self p rest)) (List.not_mem_nil _)
    subst hl
    exact List.Perm.refl _
  | cons d rest ih =>
    intro l hnd hcov
    simp only [List.flatMap_cons]
    have hnd2 : rest.Nodup := (List.nodup_cons.mp hnd).2
    have hdnotin : d ∉ rest := (List.nodup_cons.mp hnd).1
    have hcov2 : ∀ p ∈ l.filter (fun p => !(p.2 == d)), p.2 ∈ rest := by
      intro p hp
      have hmem := List.mem_of_mem_filter hp
      have hne : (p.2 == d) = false := by
        have := List.of_mem_filter hp
        simpa using this
      have := hcov p hmem
      rcases List.mem_cons.mp this with hc | hc
      · exfalso
        rw [hc] at hne
        simp at hne
      · exact hc
    have hblocks : ∀ d2 ∈ rest,
        (l.filter (fun p => p.2 == d2)).map (fun p => p.1) =
        ((l.filter (fun p => !(p.2 == d))).filter (fun p => p.2 == d2)).map (fun p => p.1) := by
      intro d2 hd2
      have hdne : d2 ≠ d := fun hc => hdnotin (hc ▸ hd2)
      congr 1
      rw [List.filter_filter]
      apply List.filter_congr
      intro p _
      by_cases hp2 : p.2 = d2
      · have : (p.2 == d) = false := by
          simp only [beq_eq_false_iff_ne]
          rw [hp2]
          exact hdne
        simp [hp2, this, hdne]
      · simp [hp2]
    have hrest : (rest.flatMap (fun d2 => (l.filter (fun p => p.2 == d2)).map (fun p => p.1))).Perm
        ((l.filter (fun p => !(p.2 == d))).map (fun p => p.1)) := by
      rw [flatMap_congr_mem rest _ _ hblocks]
      exact ih (l.filter (fun p => !(p.2 == d))) hnd2 hcov2
    have hsplit : ((l.filter (fun p => p.2 == d)).map (fun p => p.1) ++
        (l.filter (fun p => !(p.2 == d))).map (fun p => p.1)).Perm (l.map (fun p => p.1)) := by
      rw [← List.map_append]
      exact (List.filter_append_perm _ l).map _
    exact ((List.Perm.refl _).append hrest).trans hsplit

theorem layerRows_keys_perm (dist : List (String × Nat)) :
    ((layerRows dist).flatMap (fun row => row.2)).Perm (keysOf dist) := by
  unfold layerRows
  rw [List.flatMap_map]
  have hpoint : ∀ d ∈ List.insertionSort (fun a b : Nat => a ≤ b)
      ((dist.map (fun p => p.2)).dedup),
      (List.insertionSort pyStrLe ((dist.filter (fun p => p.2 == d)).map (fun p => p.1))).Perm
        ((dist.filter (fun p => p.2 == d)).map (fun p => p.1)) := by
    intro d _
    exact List.perm_insertionSort _ _
  have h1 := flatMap_perm_of_pointwise _ _ _ hpoint
  apply h1.trans
  apply filter_partition_perm
  · exact (List.perm_insertionSort _ _).nodup_iff.mpr (List.nodup_dedup _)
  · intro p hp
    rw [(List.perm_insertionSort _ _).mem_iff]
    exact List.mem_dedup.mpr (List.mem_map_of_mem _ hp)

theorem enum_repack (l : List String) (g : Nat × String → Nat × Nat) :
    ((l.enum.map (fun p => (p.2, g p))).map (fun q => q.1)) = l := by
  rw [List.map_map]
  have hcomp : ((fun q : String × Nat × Nat => q.1) ∘ (fun p : Nat × String => (p.2, g p))) =
      (fun p : Nat × String => p.2) := rfl
  rw [hcomp]
  exact List.enum_map_snd l

theorem layer_layout_keys_perm (spec : GSpec) (dir : Option String) :
    ((layer_layout spec dir).map (fun p => p.1)).Perm (keysOf (bfsDistOf spec)) := by
  simp only [layer_layout]
  have hmain : ∀ gg : Nat × List String → Nat × String → Nat × Nat,
      (((layerRows (bfsDistOf spec)).flatMap (fun row =>
        row.2.enum.map (fun p => (p.2, gg row p)))).map (fun q => q.1)).Perm
        (keysOf (bfsDistOf spec)) := by
    intro gg
    rw [List.map_flatMap]
    rw [flatMap_congr_mem _ _ (fun row => row.2)
      (fun row _ => enum_repack row.2 (gg row))]
    exact layerRows_keys_perm (bfsDistOf spec)
  split
  · exact hmain (fun row p => (p.1 * (NODE_W + H_GAP), row.1 * (NODE_H + V_GAP)))
  · exact hmain (fun row p => (row.1 * (NODE_W + H_GAP), p.1 * (NODE_H + V_GAP)))

theorem C2_layout_counterexample :
    (dlookup (build_graph c2cyc).1 "B").isSome = true ∧
    dlookup (layer_layout c2cyc (some "TD")) "B" = none := by
  constructor
  · decide
  · decide

/-- C2 amended: after layout the position map holds exactly one entry
    for every node visited by the BFS (the key multiset of the
    position map is a permutation of the duplicate-free visited id
    list), and consequently no entry at all for a node the traversal
    never reaches; unvisited nodes are not assigned layer 0. -/
theorem C2_layout_positions (spec : GSpec) (dir : Option String) :
    ((layer_layout spec dir).map (fun p => p.1)).Perm (visitedIds spec) ∧
    (visitedIds spec).Nodup := by
  exact ⟨layer_layout_keys_perm spec dir, bfsDistOf_keys_nodup spec⟩

/-! ## Claims C8 and C10: the serialized cell list -/

theorem string_e_append_inj {s t : String} (h : "e" ++ s = "e" ++ t) : s = t := by
  have hd := congrArg String.data h
  simp only [String.data_append] at hd
  have h2 : s.data = t.data := List.append_cancel_left hd
  cases s
  cases t
  exact congrArg String.mk (by simpa using h2)

theorem edgeCellsFrom_ids (styles : List (String × String)) (mode : String)
    (override : List (String × Option String)) :
    ∀ (l : List GEdge) (eid : Nat),
      (edgeCellsFrom styles mode override eid l).map cellId =
        (List.range l.length).map (fun i => "e" ++ natToString (eid + i)) := by
  intro l
  induction l with
  | nil => intro eid; rfl
  | cons e rest ih =>
    intro eid
    simp only [edgeCellsFrom, List.map_cons, cellId, List.length_cons,
      List.range_succ_eq_map, List.map_map]
    rw [ih (eid + 1)]
    have hhead : "e" ++ natToString eid = "e" ++ natToString (eid + 0) := by rw [Nat.add_zero]
    have htail : List.map (fun i => "e" ++ natToString (eid + 1 + i)) (List.range rest.length) =
        List.map ((fun i => "e" ++ natToString (eid + i)) ∘ Nat.succ) (List.range rest.length) := by
      apply List.map_congr_left
      intro i _
      simp only [Function.comp_apply]
      rw [show eid + 1 + i = eid + Nat.succ i from by omega]
    rw [hhead, htail]

theorem edgeCellsFrom_all_edge (styles : List (String × String)) (mode : String)
    (override : List (String × Option String)) :
    ∀ (l : List GEdge) (eid : Nat) (c : MxCell),
      c ∈ edgeCellsFrom styles mode override eid l → isEdgeCell c = true := by
  intro l
  induction l with
  | nil => intro eid c hc; cases hc
  | cons e rest ih =>
    intro eid c hc
    rcases List.mem_cons.mp hc with rfl | hmem
    · rfl
    · exact ih (eid + 1) c hmem

theorem make_drawio_cells_split (spec : GSpec) (pos : List (String × Nat × Nat))
    (styles : List (String × String)) (mode : String)
    (override : List (String × Option String)) :
    (make_drawio_cells spec pos styles mode override).filter isVertexCell =
      spec.nodes.map (vertexCellOf pos styles mode override) ∧
    (make_drawio_cells spec pos styles mode override).filter isEdgeCell =
      edgeCellsFrom styles mode override 100000 spec.edges := by
  unfold make_drawio_cells
  rw [List.filter_append, List.filter_append]
  constructor
  · rw [List.filter_eq_self.mpr, List.filter_eq_nil_iff.mpr, List.append_nil]
    · intro c hc
      have := edgeCellsFrom_all_edge styles mode override spec.edges 100000 c hc
      cases c with
      | vertex id value style x y w h => cases this
      | edge id value style src tgt => simp [isVertexCell]
    · intro c hc
      obtain ⟨n, _, rfl⟩ := List.mem_map.mp hc
      rfl
  · rw [List.filter_eq_nil_iff.mpr, List.nil_append, List.filter_eq_self.mpr]
    · intro c hc
      exact edgeCellsFrom_all_edge styles mode override spec.edges 100000 c hc
    · intro c hc
      obtain ⟨n, _, rfl⟩ := List.mem_map.mp hc
      simp [vertexCellOf, isEdgeCell]

theorem edge_ids_nodup (base n : Nat) :
    (((List.range n).map (fun i => "e" ++ natToString (base + i)))).Nodup := by
  apply List.Nodup.map ?_ (List.nodup_range n)
  intro i j hij
  have h1 : natToString (base + i) = natToString (base + j) := string_e_append_inj hij
  have h2 := natToString_inj _ _ h1
  omega

theorem C8_cells_counterexample :
    "e100000" ∈ ((make_drawio_cells c8spec [] [] "generic" []).filter isVertexCell).map cellId ∧
    "e100000" ∈ ((make_drawio_cells c8spec [] [] "generic" []).filter isEdgeCell).map cellId := by
  constructor
  · decide
  · decide

/-- C8 amended: the serialized document holds exactly one vertex cell
    per node and exactly one edge cell per edge; edge cells carry the
    synthetic identifiers e100000, e100001, ... drawn from the
    monotonically increasing counter, which are pairwise distinct; and
    they are disjoint from the node identifiers provided no escaped
    node id equals such a counter string (without that proviso a node
    named e100000 collides). -/
theorem C8_cells_structure (spec : GSpec) (pos : List (String × Nat × Nat))
    (styles : List (String × String)) (mode : String)
    (override : List (String × Option String))
    (h : ∀ n ∈ spec.nodes, ∀ i, i < spec.edges.length →
      xml_attr (some n.id) ≠ "e" ++ natToString (100000 + i)) :
    ((make_drawio_cells spec pos styles mode override).filter isVertexCell).length =
      spec.nodes.length ∧
    ((make_drawio_cells spec pos styles mode override).filter isEdgeCell).length =
      spec.edges.length ∧
    ((make_drawio_cells spec pos styles mode override).filter isEdgeCell).map cellId =
      (List.range spec.edges.length).map (fun i => "e" ++ natToString (100000 + i)) ∧
    (((make_drawio_cells spec pos styles mode override).filter isEdgeCell).map cellId).Nodup ∧
    (∀ id ∈ ((make_drawio_cells spec pos styles mode override).filter isVertexCell).map cellId,
      id ∉ ((make_drawio_cells spec pos styles mode override).filter isEdgeCell).map cellId) := by
  obtain ⟨hv, he⟩ := make_drawio_cells_split spec pos styles mode override
  have hids : ((make_drawio_cells spec pos styles mode override).filter isEdgeCell).map cellId =
      (List.range spec.edges.length).map (fun i => "e" ++ natToString (100000 + i)) := by
    rw [he, edgeCellsFrom_ids]
  refine ⟨?_, ?_, hids, ?_, ?_⟩
  · rw [hv, List.length_map]
  · rw [he]
    have hlen : ∀ (l : List GEdge) (eid : Nat),
        (edgeCellsFrom styles mode override eid l).length = l.length := by
      intro l
      induction l with
      | nil => intro eid; rfl
      | cons e rest ih =>
        intro eid
        simp only [edgeCellsFrom, List.length_cons, ih (eid + 1)]
    exact hlen spec.edges 100000
  · rw [hids]
    exact edge_ids_nodup 100000 spec.edges.length
  · intro id hidv hide
    rw [hids] at hide
    obtain ⟨i, hi, hieq⟩ := List.mem_map.mp hide
    rw [hv, List.map_map] at hidv
    obtain ⟨n, hn, hneq⟩ := List.mem_map.mp hidv
    have hcell : cellId (vertexCellOf pos styles mode override n) = xml_attr (some n.id) := rfl
    have : xml_attr (some n.id) = id := by
      rw [← hneq]
      rfl
    exact h n hn i (List.mem_range.mp hi) (by rw [this, ← hieq])

theorem C8_cells_structure_witness :
    ((make_drawio_cells c1spec [] [] "generic" []).filter isVertexCell).length = 1 ∧
    ((make_drawio_cells c1spec [] [] "generic" []).filter isEdgeCell).map cellId =
      (List.range 1).map (fun i => "e" ++ natToString (100000 + i)) := by
  have h := C8_cells_structure c1spec [] [] "generic" []
    (by
      intro n hn i hi
      have hlen : c1spec.edges.length = 1 := rfl
      rw [hlen] at hi
      have hi0 : i = 0 := by omega
      subst hi0
      have hn1 : n = ⟨"n1", "Start", "round", false⟩ := by
        have hns : c1spec.nodes = [⟨"n1", "Start", "round", false⟩] := rfl
        rw [hns] at hn
        simpa using hn
      subst hn1
      decide)
  exact ⟨h.1, h.2.2.1⟩

theorem filter_map_eq_single {α : Type} (l : List α) (f : α → String)
    (hn : (l.map f).Nodup) (a : α) (ha : a ∈ l) :
    l.filter (fun x => f x == f a) = [a] := by
  induction l with
  | nil => cases ha
  | cons b rest ih =>
    simp only [List.map_cons, List.nodup_cons] at hn
    rcases List.mem_cons.mp ha with heq | hmem
    · subst heq
      simp only [List.filter_cons, beq_self_eq_true, if_true]
      have hrest : rest.filter (fun x => f x == f a) = [] := by
        rw [List.filter_eq_nil_iff]
        intro x hx
        intro hc
        apply hn.1
        rw [← beq_iff_eq.mp hc]
        exact List.mem_map_of_mem f hx
      rw [hrest]
    · have hfb : (f b == f a) = false := by
        rw [beq_eq_false_iff_ne]
        intro hc
        apply hn.1
        rw [hc]
        exact List.mem_map_of_mem f hmem
      simp only [List.filter_cons, hfb, Bool.false_eq_true, if_false]
      exact ih hn.2 hmem

/-- C10: a node of the spec whose id has no entry in the position map
    still yields exactly one vertex cell, placed at the default
    coordinates (0,0) with the standard node width and height. -/
theorem C10_default_position (spec : GSpec) (pos : List (String × Nat × Nat))
    (styles : List (String × String)) (mode : String)
    (override : List (String × Option String)) (n : GNode)
    (hmem : n ∈ spec.nodes) (hpos : dlookup pos n.id = none)
    (hnodup : (spec.nodes.map (fun m => xml_attr (some m.id))).Nodup) :
    (make_drawio_cells spec pos styles mode override).filter
      (fun c => isVertexCell c && (cellId c == xml_attr (some n.id))) =
      [vertexCellOf pos styles mode override n] ∧
    vertexCellOf pos styles mode override n =
      MxCell.vertex (xml_attr (some n.id))
        (xml_attr (some (if n.label ≠ "" then n.label else n.id)))
        (xml_attr (some (vertexStyleFor mode styles override n))) 0 0 NODE_W NODE_H := by
  constructor
  · unfold make_drawio_cells
    rw [List.filter_append]
    have hedge : (edgeCellsFrom styles mode override 100000 spec.edges).filter
        (fun c => isVertexCell c && (cellId c == xml_attr (some n.id))) = [] := by
      rw [List.filter_eq_nil_iff]
      intro c hc
      have := edgeCellsFrom_all_edge styles mode override spec.edges 100000 c hc
      cases c with
      | vertex id value style x y w h => cases this
      | edge id value style src tgt => simp [isVertexCell]
    rw [hedge, List.append_nil]
    rw [List.filter_map]
    have hpred : ((fun c => isVertexCell c && (cellId c == xml_attr (some n.id))) ∘
        (vertexCellOf pos styles mode override)) =
        (fun m => (fun m2 => xml_attr (some m2.id)) m == (fun m2 => xml_attr (some m2.id)) n) := by
      funext m
      simp only [Function.comp_apply]
      have h1 : isVertexCell (vertexCellOf pos styles mode override m) = true := rfl
      have h2 : cellId (vertexCellOf pos styles mode override m) = xml_attr (some m.id) := rfl
      rw [h1, h2, Bool.true_and]
    rw [hpred, filter_map_eq_single spec.nodes (fun m => xml_attr (some m.id)) hnodup n hmem]
    rfl
  · unfold vertexCellOf
    rw [hpos]
    rfl

theorem C10_default_position_witness :
    (make_drawio_cells c10spec [] [] "generic" []).filter
      (fun c => isVertexCell c && (cellId c == xml_attr (some "a"))) =
      [vertexCellOf [] [] "generic" [] ⟨"a", "lbl", "rect", false⟩] ∧
    vertexCellOf [] [] "generic" [] ⟨"a", "lbl", "rect", false⟩ =
      MxCell.vertex (xml_attr (some "a")) (xml_attr (some "lbl"))
        (xml_attr (some (vertexStyleFor "generic" [] [] ⟨"a", "lbl", "rect", false⟩)))
        0 0 NODE_W NODE_H := by
  have h := C10_default_position c10spec [] [] "generic" [] ⟨"a", "lbl", "rect", false⟩
    (by decide) (by decide) (by decide)
  exact ⟨h.1, h.2.trans rfl⟩

theorem replaceAllGo_single (x : Char) (repl : List Char) :
    ∀ (s : List Char) (f : Nat), s.length ≤ f →
      replaceAllGo [x] repl f s = s.flatMap (fun c => if c = x then repl else [c]) := by
  intro s
  induction s with
  | nil => intro f _; cases f <;> rfl
  | cons c rest ih =>
    intro f hf
    cases f with
    | zero => simp at hf
    | succ f =>
      simp only [replaceAllGo, List.flatMap_cons]
      have hpre : ([x].isPrefixOf (c :: rest)) = (x == c) := by
        simp [List.isPrefixOf]
      by_cases hc : c = x
      · have hx : (x == c) = true := beq_iff_eq.mpr hc.symm
        rw [if_pos]
        · simp only [List.length_cons, List.length_nil, List.drop_succ_cons, List.drop_zero]
          rw [ih f (by simpa using hf)]
          simp [hc]
        · refine ⟨by simp, ?_⟩
          rw [hpre, hx]
      · have hx : (x == c) = false := beq_eq_false_iff_ne.mpr (fun h2 => hc h2.symm)
        rw [if_neg]
        · rw [ih f (by simpa using hf)]
          simp [hc]
        · intro hcontra
          rw [hpre, hx] at hcontra
          exact Bool.noConfusion hcontra.2

theorem replaceAll_amp (l : List Char) : replaceAll "&".data "&amp;".data l = l.flatMap ampMap := by
  rw [show "&".data = ['&'] from rfl]
  exact replaceAllGo_single '&' _ l (l.length + 1) (Nat.le_succ _)

theorem replaceAll_lt (l : List Char) : replaceAll "<".data "&lt;".data l = l.flatMap ltMap := by
  rw [show "<".data = ['<'] from rfl]
  exact replaceAllGo_single '<' _ l (l.length + 1) (Nat.le_succ _)

theorem replaceAll_gt (l : List Char) : replaceAll ">".data "&gt;".data l = l.flatMap gtMap := by
  rw [show ">".data = ['>'] from rfl]
  exact replaceAllGo_single '>' _ l (l.length + 1) (Nat.le_succ _)

theorem replaceAll_quot (l : List Char) :
    replaceAll "\"".data "&quot;".data l = l.flatMap quotMap := by
  rw [show "\"".data = ['"'] from rfl]
  exact replaceAllGo_single '"' _ l (l.length + 1) (Nat.le_succ _)

theorem escAttr_pointwise (c : Char) :
    (((ampMap c).flatMap ltMap).flatMap gtMap).flatMap quotMap = escAttr c := by
  by_cases h1 : c = '&'
  · subst h1; decide
  · by_cases h2 : c = '<'
    · subst h2; decide
    · by_cases h3 : c = '>'
      · subst h3; decide
      · by_cases h4 : c = '"'
        · subst h4; decide
        · simp [ampMap, ltMap, gtMap, quotMap, escAttr, h1, h2, h3, h4]

theorem escChain (l : List Char) :
    (((l.flatMap ampMap).flatMap ltMap).flatMap gtMap).flatMap quotMap = l.flatMap escAttr := by
  induction l with
  | nil => rfl
  | cons c rest ih =>
    simp only [List.flatMap_cons, List.flatMap_append]
    rw [escAttr_pointwise]
    congr 1

theorem xml_attr_some_data (s : String) :
    (xml_attr (some s)).data = s.data.flatMap escAttr := by
  show replaceAll "\"".data "&quot;".data
      (replaceAll ">".data "&gt;".data
        (replaceAll "<".data "&lt;".data
          (replaceAll "&".data "&amp;".data s.data))) = s.data.flatMap escAttr
  rw [replaceAll_amp, replaceAll_lt, replaceAll_gt, replaceAll_quot, escChain]

theorem escBoth_pointwise (c : Char) : (escHtml c).flatMap escAttr = escBoth c := by
  by_cases h1 : c = '&'
  · subst h1; decide
  · by_cases h2 : c = '<'
    · subst h2; decide
    · by_cases h3 : c = '>'
      · subst h3; decide
      · by_cases h4 : c = '"'
        · subst h4; decide
        · by_cases h5 : c = apos
          · subst h5; decide
          · simp [escHtml, escAttr, escBoth, h1, h2, h3, h4, h5]

theorem encode_data (s : String) :
    (xml_attr (some (html_escape s))).data = s.data.flatMap escBoth := by
  rw [xml_attr_some_data]
  show (s.data.flatMap escHtml).flatMap escAttr = s.data.flatMap escBoth
  induction s.data with
  | nil => rfl
  | cons c rest ih =>
    simp only [List.flatMap_cons, List.flatMap_append]
    rw [escBoth_pointwise]
    congr 1

theorem xmlUnescL_ord (c : Char) (h : c ≠ '&') (rest : List Char) :
    xmlUnescL (c :: rest) = c :: xmlUnescL rest := by
  rw [xmlUnescL]
  simp [h]

theorem xmlUnescL_amp (r : List Char) :
    xmlUnescL ('&' :: 'a' :: 'm' :: 'p' :: ';' :: r) = '&' :: xmlUnescL r := by
  rw [xmlUnescL]
  simp [List.isPrefixOf]

theorem xmlUnescL_block (c : Char) (r : List Char) :
    xmlUnescL (escBoth c ++ r) = escHtml c ++ xmlUnescL r := by
  by_cases h1 : c = '&'
  · subst h1
    show xmlUnescL ('&' :: 'a' :: 'm' :: 'p' :: ';' :: 'a' :: 'm' :: 'p' :: ';' :: r) =
      '&' :: 'a' :: 'm' :: 'p' :: ';' :: xmlUnescL r
    rw [xmlUnescL_amp, xmlUnescL_ord 'a' (by decide), xmlUnescL_ord 'm' (by decide),
      xmlUnescL_ord 'p' (by decide), xmlUnescL_ord ';' (by decide)]
  · by_cases h2 : c = '<'
    · subst h2
      show xmlUnescL ('&' :: 'a' :: 'm' :: 'p' :: ';' :: 'l' :: 't' :: ';' :: r) =
        '&' :: 'l' :: 't' :: ';' :: xmlUnescL r
      rw [xmlUnescL_amp, xmlUnescL_ord 'l' (by decide), xmlUnescL_ord 't' (by decide),
        xmlUnescL_ord ';' (by decide)]
    · by_cases h3 : c = '>'
      · subst h3
        show xmlUnescL ('&' :: 'a' :: 'm' :: 'p' :: ';' :: 'g' :: 't' :: ';' :: r) =
          '&' :: 'g' :: 't' :: ';' :: xmlUnescL r
        rw [xmlUnescL_amp, xmlUnescL_ord 'g' (by decide), xmlUnescL_ord 't' (by decide),
          xmlUnescL_ord ';' (by decide)]
      · by_cases h4 : c = '"'
        · subst h4
          show xmlUnescL ('&' :: 'a' :: 'm' :: 'p' :: ';' :: 'q' :: 'u' :: 'o' :: 't' :: ';' :: r) =
            '&' :: 'q' :: 'u' :: 'o' :: 't' :: ';' :: xmlUnescL r
          rw [xmlUnescL_amp, xmlUnescL_ord 'q' (by decide), xmlUnescL_ord 'u' (by decide),
            xmlUnescL_ord 'o' (by decide), xmlUnescL_ord 't' (by decide),
            xmlUnescL_ord ';' (by decide)]
        · by_cases h5 : c = apos
          · subst h5
            show xmlUnescL ('&' :: 'a' :: 'm' :: 'p' :: ';' :: '#' :: 'x' :: '2' :: '7' :: ';' :: r) =
              '&' :: '#' :: 'x' :: '2' :: '7' :: ';' :: xmlUnescL r
            rw [xmlUnescL_amp, xmlUnescL_ord '#' (by decide), xmlUnescL_ord 'x' (by decide),
              xmlUnescL_ord '2' (by decide), xmlUnescL_ord '7' (by decide),
              xmlUnescL_ord ';' (by decide)]
          · have hEB : escBoth c = [c] := by simp [escBoth, h1, h2, h3, h4, h5]
            have hEH : escHtml c = [c] := by simp [escHtml, h1, h2, h3, h4, h5]
            rw [hEB, hEH]
            exact xmlUnescL_ord c h1 r

theorem xmlUnescL_flat (l : List Char) :
    xmlUnescL (l.flatMap escBoth) = l.flatMap escHtml := by
  induction l with
  | nil => simp [xmlUnescL]
  | cons c rest ih =>
    simp only [List.flatMap_cons]
    rw [xmlUnescL_block, ih]

theorem htmlUnescL_ord (c : Char) (h : c ≠ '&') (rest : List Char) :
    htmlUnescL (c :: rest) = c :: htmlUnescL rest := by
  rw [htmlUnescL]
  simp [h]

theorem htmlUnescL_block (c : Char) (r : List Char) :
    htmlUnescL (escHtml c ++ r) = c :: htmlUnescL r := by
  by_cases h1 : c = '&'
  · subst h1
    show htmlUnescL ('&' :: 'a' :: 'm' :: 'p' :: ';' :: r) = '&' :: htmlUnescL r
    rw [htmlUnescL]
    simp [List.isPrefixOf]
  · by_cases h2 : c = '<'
    · subst h2
      show htmlUnescL ('&' :: 'l' :: 't' :: ';' :: r) = '<' :: htmlUnescL r
      rw [htmlUnescL]
      simp [List.isPrefixOf]
    · by_cases h3 : c = '>'
      · subst h3
        show htmlUnescL ('&' :: 'g' :: 't' :: ';' :: r) = '>' :: htmlUnescL r
        rw [htmlUnescL]
        simp [List.isPrefixOf]
      · by_cases h4 : c = '"'
        · subst h4
          show htmlUnescL ('&' :: 'q' :: 'u' :: 'o' :: 't' :: ';' :: r) = '"' :: htmlUnescL r
          rw [htmlUnescL]
          simp [List.isPrefixOf]
        · by_cases h5 : c = apos
          · subst h5
            show htmlUnescL ('&' :: '#' :: 'x' :: '2' :: '7' :: ';' :: r) = apos :: htmlUnescL r
            rw [htmlUnescL]
            simp [List.isPrefixOf]
          · have hEH : escHtml c = [c] := by simp [escHtml, h1, h2, h3, h4, h5]
            rw [hEH]
            exact htmlUnescL_ord c h1 r

theorem htmlUnescL_flat (l : List Char) :
    htmlUnescL (l.flatMap escHtml) = l := by
  induction l with
  | nil => simp [htmlUnescL]
  | cons c rest ih =>
    simp only [List.flatMap_cons]
    rw [htmlUnescL_block, ih]

/-- C9: the two escaping layers round-trip. For every label string
    (in particular one containing literal ampersand and less-than
    characters), applying the content escape (html_escape) followed by
    the attribute escape (xml_attr), then the attribute-layer unescape
    and the content-layer unescape (the reverse order), returns the
    original string. -/
theorem C9_escape_roundtrip :
    (∀ s : String,
      html_unescape (xml_attr_unescape (xml_attr (some (html_escape s)))) = s) ∧
    html_unescape (xml_attr_unescape (xml_attr (some (html_escape "a&<b")))) = "a&<b" := by
  have hall : ∀ s : String,
      html_unescape (xml_attr_unescape (xml_attr (some (html_escape s)))) = s := by
    intro s
    have h1 : xml_attr_unescape (xml_attr (some (html_escape s))) =
        String.mk (s.data.flatMap escHtml) := by
      show String.mk (xmlUnescL (xml_attr (some (html_escape s))).data) = _
      rw [encode_data, xmlUnescL_flat]
    rw [h1]
    show String.mk (htmlUnescL (s.data.flatMap escHtml)) = s
    rw [htmlUnescL_flat]
  exact ⟨hall, hall _⟩
